import Mathlib

/-!
Verification of the DeepFinder duplicate-file search core against its
specification.  The Rust sources (`src/search_engine.rs`, `src/system.rs`,
`src/error.rs`, `src/cli.rs`) are shallowly embedded: hash maps become
association lists that record their iteration order, `Result` becomes
`Except`, a panicking computation is modelled by `RustOutcome`, and the
filesystem is a partial function from paths to byte contents.  Digest
algorithms themselves (md5, sha1, ...) are abstracted as a parameter
`DigestFn`; no claim depends on concrete digest values.
-/

namespace DeepFinder

/-! ## Strings

Rust compares `&str` values byte-wise; on valid UTF-8 this coincides with
lexicographic comparison of the code points, which is what `lexLe`
computes on `String.data`. -/

/-- Code-point-wise lexicographic `≤` on character lists, mirroring Rust's
byte-wise `str::cmp` (byte order and code-point order agree on UTF-8). -/
def lexLe : List Char → List Char → Bool
  | [], _ => true
  | _ :: _, [] => false
  | a :: as, b :: bs =>
    if a.toNat < b.toNat then true
    else if b.toNat < a.toNat then false
    else lexLe as bs

/-! ## Errors (src/error.rs)

`SystemError` in `src/error.rs` lacks the `UnsupportedHashAlgorithm`
variant that `manage_hash` in `src/system.rs` constructs (the provided
sources are snapshots of slightly different revisions); the embedding
includes the variant since `manage_hash`'s own source names it. -/

inductive SystemError where
  | InvalidPath (s : String)
  | InvalidFilename (s : String)
  | UnableToCreateFile (p e : String)
  | UnableToSerialize (fmt e : String)
  | ParentFolderDoesntExist (s : String)
  | InvalidFolder (s : String)
  | UnableToReadDir (s : String)
  | UnableToGetCurrentDir (s : String)
  | ThreadError
  | UnsupportedHashAlgorithm (s : String)
  deriving DecidableEq

inductive ArgError where
  | NoPathSpecified
  | CliSyntaxError
  deriving DecidableEq

inductive DeepFinderError where
  | ArgError (e : ArgError)
  | SystemError (e : SystemError)
  deriving DecidableEq

/-- Outcome of a Rust computation that may panic (`unwrap` on a failing
`Result`): either a normal return value or a panic that aborts the
executing thread. -/
inductive RustOutcome (α : Type) where
  | panicked
  | ret (a : α)
  deriving DecidableEq

/-! ## Data model (src/system.rs `VirtualFile`, src/cli.rs `FindingConfig`,
src/search_engine.rs `DuplicateFile`)

The checksum `HashMap<String, String>` is embedded as an association list
whose list order models the map's (arbitrary) internal iteration order;
two maps that are equal as sets of pairs may therefore be embedded by two
lists that are permutations of each other.  `src/system.rs` names the
field `checksum` while `src/search_engine.rs` accesses `checksums`; the
embedding follows the scheduler/grouper spelling. -/

structure VirtualFile where
  name : String
  size : Nat
  full_path : String
  checksums : Option (List (String × String))
  deriving DecidableEq

/-- Insert-or-replace an algorithm/digest pair in a checksum map
(`HashMap::insert` semantics on the association-list embedding). -/
def insertChecksum : List (String × String) → String → String → List (String × String)
  | [], alg, d => [(alg, d)]
  | (k, v) :: rest, alg, d =>
    if k = alg then (k, d) :: rest else (k, v) :: insertChecksum rest alg d

/-- Modelled from the spec: `VirtualFile::update_checksum` is called by
`hash_handler` in `src/search_engine.rs` but its definition is absent
from the provided sources.  Spec §4.4: the worker "attaches the
resulting digest ... into that record's checksum mapping under the
algorithm's identifier" and the merge step "updat[es] each canonical
record's checksum map with the new algorithm entry"; an absent map is
created. -/
def VirtualFile.update_checksum (f : VirtualFile) (alg d : String) : VirtualFile :=
  { f with checksums := some (insertChecksum (f.checksums.getD []) alg d) }

/-- The fields of `FindingConfig` (src/cli.rs) consumed by the search
core; the CLI-only `output` field is omitted. -/
structure FindingConfig where
  search_path : String
  enable_search_by_name : Bool
  include_hidden_files : Bool
  hash : Option (List String)
  deriving DecidableEq

/-- `DuplicateFile` (src/search_engine.rs); the `HashSet<String>` of paths
is embedded as an insertion-ordered duplicate-free list. -/
structure DuplicateFile where
  paths : List String
  name : String
  checksums : Option (List (String × String))
  nb_occurrences : Nat
  size : Nat
  deriving DecidableEq

/-! ## Duplicate grouping (src/search_engine.rs `search_eventual_duplicates`) -/

/-- The hash-mode grouping key:
`checksums.iter().map(|(k, v)| format!("{k}:{v}")).collect::<Vec<_>>().join("|")` —
note the concatenation follows the map's iteration order; no sorting is
performed. -/
def hashModeKey (cs : List (String × String)) : String :=
  String.intercalate "|" (cs.map (fun kv => kv.1 ++ ":" ++ kv.2))

/-- `HashSet::insert` on the insertion-ordered list embedding. -/
def insertPath (paths : List String) (p : String) : List String :=
  if p ∈ paths then paths else paths ++ [p]

/-- `map.entry(key).or_insert_with(|| DuplicateFile { .. nb_occurrences: 0 .. })`
followed by `entry.paths.insert(..)` and `entry.nb_occurrences += 1`. -/
def upsertGroup : List (String × DuplicateFile) → String → VirtualFile →
    List (String × DuplicateFile)
  | [], key, file =>
    [(key, { paths := insertPath [] file.full_path, name := file.name,
             checksums := file.checksums, nb_occurrences := 0 + 1,
             size := file.size })]
  | (k, g) :: rest, key, file =>
    if k = key then
      (k, { g with paths := insertPath g.paths file.full_path,
                   nb_occurrences := g.nb_occurrences + 1 }) :: rest
    else (k, g) :: upsertGroup rest key file

/-- One iteration of the grouping loop: compute the key (name, or the
checksum map rendered in iteration order; a record with no checksum map
is skipped via `continue`) and fold the record into the key map. -/
def groupStep (byName : Bool) (acc : List (String × DuplicateFile))
    (file : VirtualFile) : List (String × DuplicateFile) :=
  match (if byName then some file.name
         else match file.checksums with
              | some cs => some (hashModeKey cs)
              | none => none) with
  | none => acc
  | some key => upsertGroup acc key file

/-- `search_eventual_duplicates` (src/search_engine.rs, lines 186–211).
The `HashMap<String, DuplicateFile>` is embedded as an association list in
insertion order; `map.into_values()` becomes the projection to values. -/
def search_eventual_duplicates (virtual_files : List VirtualFile)
    (config : FindingConfig) : List DuplicateFile :=
  (virtual_files.foldl (groupStep config.enable_search_by_name) []).map (·.2)

/-! ## Hashing (src/system.rs)

The filesystem is a partial map from path strings to byte contents
(`none` models a file that cannot be opened or whose read fails).  The
thirteen digest algorithms are abstracted by a `DigestFn` assigning to an
algorithm identifier and a byte content the digest bytes; the streaming
1024-byte read loop of `hash_with_digest` folds the whole content into
the hasher, so it is observationally the digest of the full content. -/

def FileSys : Type := String → Option (List Nat)

def DigestFn : Type := String → List Nat → List Nat

/-- Lowercase hexadecimal digit. -/
def hexDigit (n : Nat) : Char :=
  if n < 10 then Char.ofNat (48 + n) else Char.ofNat (87 + n)

/-- `hex::encode`: lowercase hexadecimal rendering of digest bytes. -/
def hexEncode (bs : List Nat) : String :=
  ⟨bs.flatMap (fun b => [hexDigit (b / 16 % 16), hexDigit (b % 16)])⟩

/-- `hash_with_digest` (src/system.rs, lines 149–164): opens the file with
`File::open(path).unwrap()` and reads it with `reader.read(..).unwrap()`,
so an open or read failure panics the calling thread; on success the
result is the hex-encoded digest of the content. -/
def hash_with_digest (hasher : List Nat → List Nat) (fs : FileSys)
    (path : String) : RustOutcome String :=
  match fs path with
  | none => .panicked
  | some content => .ret (hexEncode (hasher content))

/-- The fixed case-sensitive set of recognized algorithm identifiers
(the match arms of `manage_hash`, equally the clap `value_parser` list in
src/cli.rs). -/
def supportedAlgorithms : List String :=
  ["md5", "sha1", "sha224", "sha256", "sha384", "sha512",
   "sha3-224", "sha3-256", "sha3-384", "sha3-512",
   "blake2b-512", "blake2s-256", "whirlpool"]

/-- Wrap a possibly-panicking string computation in `Ok` (the `Ok(..)`
around each `hash_with_digest` call in `manage_hash`): a panic during
evaluation of the argument propagates. -/
def retOk : RustOutcome String → RustOutcome (Except SystemError String)
  | .panicked => .panicked
  | .ret s => .ret (.ok s)

/-- `manage_hash` (src/system.rs, lines 118–135): a thirteen-arm match on
the algorithm identifier; each recognized arm hashes the file with the
corresponding hasher, the default arm fails with
`UnsupportedHashAlgorithm`. -/
def manage_hash (digest : DigestFn) (fs : FileSys) (file hash : String) :
    RustOutcome (Except SystemError String) :=
  match hash with
  | "md5" => retOk (hash_with_digest (digest "md5") fs file)
  | "sha1" => retOk (hash_with_digest (digest "sha1") fs file)
  | "sha224" => retOk (hash_with_digest (digest "sha224") fs file)
  | "sha256" => retOk (hash_with_digest (digest "sha256") fs file)
  | "sha384" => retOk (hash_with_digest (digest "sha384") fs file)
  | "sha512" => retOk (hash_with_digest (digest "sha512") fs file)
  | "sha3-224" => retOk (hash_with_digest (digest "sha3-224") fs file)
  | "sha3-256" => retOk (hash_with_digest (digest "sha3-256") fs file)
  | "sha3-384" => retOk (hash_with_digest (digest "sha3-384") fs file)
  | "sha3-512" => retOk (hash_with_digest (digest "sha3-512") fs file)
  | "blake2b-512" => retOk (hash_with_digest (digest "blake2b-512") fs file)
  | "blake2s-256" => retOk (hash_with_digest (digest "blake2s-256") fs file)
  | "whirlpool" => retOk (hash_with_digest (digest "whirlpool") fs file)
  | _ => .ret (.error (.UnsupportedHashAlgorithm hash))

/-! ## Scheduling (src/search_engine.rs `hash_handler`, lines 127–173) -/

/-- Rust `usize::div_ceil`. -/
def divCeil (a b : Nat) : Nat := (a + b - 1) / b

/-- The slice `l[s..e]`. -/
def slice (s e : Nat) (l : List VirtualFile) : List VirtualFile :=
  (l.drop s).take (e - s)

/-- The spawning loop `for i in 0..num_cores`: chunk `i` covers indices
`i*chunk_size .. min((i+1)*chunk_size, len)`; the loop breaks at the
first empty chunk, so no worker is spawned for one. -/
def spawnChunks (n cs : Nat) : Nat → Nat → List (Nat × Nat)
  | _, 0 => []
  | i, c + 1 =>
    let s := i * cs
    let e := min ((i + 1) * cs) n
    if e ≤ s then [] else (s, e) :: spawnChunks n cs (i + 1) c

/-- The chunk layout of one pass over `n` records with `C` logical cores:
`chunk_size = n.div_ceil(C)`. -/
def chunksOf (n C : Nat) : List (Nat × Nat) := spawnChunks n (divCeil n C) 0 C

/-- The worker thread body: for each record of the owned chunk, hash it
and attach the digest on success.  `manage_hash` in src/system.rs returns
`Result` while the worker in src/search_engine.rs matches it as an
`Option` (the provided snapshots diverge); the embedding follows the
worker's structure — a successful digest is attached, a returned error is
absorbed, and a panic aborts the worker. -/
def workerLoop (digest : DigestFn) (fs : FileSys) (hash : String) :
    List VirtualFile → RustOutcome (List VirtualFile)
  | [] => .ret []
  | f :: rest =>
    match manage_hash digest fs f.full_path hash with
    | .panicked => .panicked
    | .ret (.ok h) =>
      match workerLoop digest fs hash rest with
      | .panicked => .panicked
      | .ret rest' => .ret (f.update_checksum hash h :: rest')
    | .ret (.error _) =>
      match workerLoop digest fs hash rest with
      | .panicked => .panicked
      | .ret rest' => .ret (f :: rest')

/-- `updated_files.iter_mut().find(|f| f.full_path == file.full_path)`
followed by the merge update: the first record with the matching path
receives `update_checksum(alg, checksums.get(alg).cloned().unwrap_or_default())`
when the incoming record carries a checksum map. -/
def updateFirst : List VirtualFile → VirtualFile → String → List VirtualFile
  | [], _, _ => []
  | g :: rest, file, hash =>
    if g.full_path = file.full_path then
      (match file.checksums with
       | some cs => g.update_checksum hash ((List.lookup hash cs).getD "")
       | none => g) :: rest
    else g :: updateFirst rest file hash

/-- Merge one worker-returned record into the accumulated list: update the
existing record with the same `full_path`, or push the record. -/
def mergeFile (hash : String) (updated : List VirtualFile)
    (file : VirtualFile) : List VirtualFile :=
  if updated.any (fun f => f.full_path == file.full_path) then
    updateFirst updated file hash
  else updated ++ [file]

def mergeChunk (hash : String) (updated : List VirtualFile)
    (chunk : List VirtualFile) : List VirtualFile :=
  chunk.foldl (mergeFile hash) updated

/-- The join loop of one pass: threads are joined in spawn order; a
panicked worker makes the whole operation fail with `ThreadError`,
otherwise its chunk is merged. -/
def joinLoop (hash : String) : List VirtualFile →
    List (RustOutcome (List VirtualFile)) →
    Except DeepFinderError (List VirtualFile)
  | updated, [] => .ok updated
  | updated, r :: rest =>
    match r with
    | .panicked => .error (.SystemError .ThreadError)
    | .ret chunk => joinLoop hash (mergeChunk hash updated chunk) rest

/-- One algorithm pass: spawn a worker per non-empty chunk of the
canonical record list (which is only reassigned after all passes), then
join and merge. -/
def runPass (digest : DigestFn) (fs : FileSys) (num_cores : Nat)
    (hash : String) (virtual_files updated : List VirtualFile) :
    Except DeepFinderError (List VirtualFile) :=
  joinLoop hash updated
    ((chunksOf virtual_files.length num_cores).map
      (fun se => workerLoop digest fs hash (slice se.1 se.2 virtual_files)))

/-- The pass loop of `hash_handler` over the requested algorithms,
accumulating `updated_files`; the first failed join aborts with the
error. -/
def hash_handler_go (digest : DigestFn) (fs : FileSys) (num_cores : Nat)
    (virtual_files : List VirtualFile) :
    List String → List VirtualFile → Except DeepFinderError (List VirtualFile)
  | [], updated => .ok updated
  | hash :: rest, updated =>
    match runPass digest fs num_cores hash virtual_files updated with
    | .error e => .error e
    | .ok updated' => hash_handler_go digest fs num_cores virtual_files rest updated'

/-- `hash_handler` (src/search_engine.rs, lines 127–173), value-level:
the returned list is the final `updated_files` that the last line
assigns into `*virtual_files`; on error nothing is assigned. -/
def hash_handler (digest : DigestFn) (fs : FileSys) (num_cores : Nat)
    (hash_algorithms : List String) (virtual_files : List VirtualFile) :
    Except DeepFinderError (List VirtualFile) :=
  hash_handler_go digest fs num_cores virtual_files hash_algorithms []

/-- The `&mut Vec<VirtualFile>` calling convention of `hash_handler`:
the canonical record list is replaced by `updated_files` only on success
(the assignment is the function's final statement), so on error the
caller's list is exactly the one passed in. -/
def hash_handler_mut (digest : DigestFn) (fs : FileSys) (num_cores : Nat)
    (hash_algorithms : List String) (virtual_files : List VirtualFile) :
    Except DeepFinderError Unit × List VirtualFile :=
  match hash_handler digest fs num_cores hash_algorithms virtual_files with
  | .ok v => (.ok (), v)
  | .error e => (.error e, virtual_files)

/-- Soundness of one record's checksum map with respect to the
filesystem: every stored `(algorithm, digest)` pair is the hex-encoded
digest actually computed from the file's content, which in particular
requires the file to have been read successfully. -/
def ChecksumSound (digest : DigestFn) (fs : FileSys) (f : VirtualFile) : Prop :=
  ∀ p ∈ f.checksums.getD [], ∃ c, fs f.full_path = some c
    ∧ p.2 = hexEncode (digest p.1 c)

/-! ## Directory scanning (src/search_engine.rs `search_files`, lines 69–114)

A directory tree is embedded as an `Entry`: a regular file, a directory
whose `readable` flag tells whether `fs::read_dir` succeeds on it, or
`eerr`, a directory entry whose per-entry `DirEntry` result is an error
(such an entry carries no usable data and is dropped by the
`filter_map(|entry| entry.ok() ..)` of the listing).  The list order of
`children` models the filesystem's native (arbitrary) readdir order. -/

inductive Entry where
  | efile (name : String)
  | edir (name : String) (readable : Bool) (children : List Entry)
  | eerr

def Entry.name : Entry → String
  | .efile n => n
  | .edir n _ _ => n
  | .eerr => ""

def Entry.isDir : Entry → Bool
  | .edir _ _ _ => true
  | _ => false

def Entry.isFile : Entry → Bool
  | .efile _ => true
  | _ => false

def Entry.isErr : Entry → Bool
  | .eerr => true
  | _ => false

/-- Rust `name.starts_with('.')`. -/
def startsWithDot (s : String) : Bool :=
  match s.data with
  | [] => false
  | c :: _ => c = '.'

/-- The comparator `aname.cmp(bname)` of `paths.sort_by`. -/
def entryLe (a b : Entry) : Bool := lexLe a.name.data b.name.data

/-- Stable insertion into a sorted list (insert after every element the
new one is not strictly before).  Any two stable sorts with the same
comparator agree on every input, so this models Rust's stable
`sort_by`. -/
def orderedInsertB (le : α → α → Bool) (a : α) : List α → List α
  | [] => [a]
  | b :: l => if le a b then a :: b :: l else b :: orderedInsertB le a l

/-- Stable sort with a boolean comparator (models `Vec::sort_by`). -/
def insertionSortB (le : α → α → Bool) : List α → List α
  | [] => []
  | a :: l => orderedInsertB le a (insertionSortB le l)

/-- Membership inversion for `orderedInsertB`, needed by the termination
arguments of the recursive scanners below. -/
def mem_of_orderedInsertB (le : α → α → Bool) (a : α) :
    ∀ (l : List α) (x : α), x ∈ orderedInsertB le a l → x = a ∨ x ∈ l
  | [], x => by simp [orderedInsertB]
  | b :: t, x => by
    simp only [orderedInsertB]
    by_cases h : le a b
    · simp only [if_pos h, List.mem_cons]; tauto
    · simp only [if_neg h, List.mem_cons]
      intro hx
      rcases hx with h1 | h1
      · exact Or.inr (Or.inl h1)
      · rcases mem_of_orderedInsertB le a t x h1 with h2 | h2
        · exact Or.inl h2
        · exact Or.inr (Or.inr h2)

/-- Membership inversion for `insertionSortB`, needed by the termination
arguments of the recursive scanners below. -/
def mem_of_insertionSortB (le : α → α → Bool) :
    ∀ (l : List α) (x : α), x ∈ insertionSortB le l → x ∈ l
  | [], x => by simp [insertionSortB]
  | a :: t, x => by
    simp only [insertionSortB]
    intro hx
    rcases mem_of_orderedInsertB le a _ x hx with h | h
    · simp [h]
    · exact List.mem_cons_of_mem a (mem_of_insertionSortB le t x h)

/-- The `for path in &paths` loop of `search_files` with its
counting-down `index`: each entry is paired with the (pre-computed)
result of the recursive scan of that entry; the two arms of the
`if index == 0` conditional in the source are textually identical, and a
recursive failure propagates via `?`. -/
def dirLoop : List (Entry × Except SystemError (List String)) → Nat →
    Except SystemError (List String)
  | [], _ => .ok []
  | (e, r) :: rest, index =>
    let index' := index - 1
    if index' = 0 then
      match (if e.isDir then r else .ok []) with
      | .error err => .error err
      | .ok fs₁ =>
        match dirLoop rest index' with
        | .error err => .error err
        | .ok fs₂ => .ok (fs₁ ++ fs₂)
    else
      match (if e.isDir then r else .ok []) with
      | .error err => .error err
      | .ok fs₁ =>
        match dirLoop rest index' with
        | .error err => .error err
        | .ok fs₂ => .ok (fs₁ ++ fs₂)

/-- `search_files` (src/search_engine.rs, lines 69–114): list the
directory (failing with `UnableToReadDir` when it cannot be read, which
is also what `fs::read_dir` does on a non-directory), drop errored
entries, drop hidden names unless requested, sort by base name, recurse
into subdirectories in sorted order appending their results, then append
this level's regular files in sorted order. -/
def search_files (include_hidden_files : Bool) (dir : String) (t : Entry) :
    Except SystemError (List String) :=
  match t with
  | .efile _ => .error (.UnableToReadDir dir)
  | .eerr => .error (.UnableToReadDir dir)
  | .edir _ false _ => .error (.UnableToReadDir dir)
  | .edir _ true children =>
    let present := children.filter (fun c => !c.isErr)
    let kept := present.filter
      (fun c => include_hidden_files || !startsWithDot c.name)
    let rs := kept.attach.map
      (fun ce => (ce.1,
        search_files include_hidden_files (dir ++ "/" ++ ce.1.name) ce.1))
    let sorted := insertionSortB (fun a b => entryLe a.1 b.1) rs
    match dirLoop sorted sorted.length with
    | .error e => .error e
    | .ok dirFiles =>
      .ok (dirFiles ++ (sorted.map (·.1)).filterMap
        (fun c => if c.isFile then some (dir ++ "/" ++ c.name) else none))
termination_by sizeOf t
decreasing_by
  have h1 : ce.1 ∈ kept := ce.2
  have h2 : ce.1 ∈ children := List.mem_of_mem_filter (List.mem_of_mem_filter h1)
  have h3 := List.sizeOf_lt_of_mem h2
  simp only [Entry.edir.sizeOf_spec]
  omega

/-- Sequence subdirectory results in order, propagating the first
failure and concatenating the file lists on success. -/
def seqResults : List (Except SystemError (List String)) →
    Except SystemError (List String)
  | [] => .ok []
  | .error e :: _ => .error e
  | .ok v :: rest =>
    match seqResults rest with
    | .error e => .error e
    | .ok vs => .ok (v ++ vs)

/-- The scanner as the specification words it (spec §4.1): filter hidden
entries per level, sort the survivors by base name ascending byte-wise,
recurse into the subdirectories in that order appending their results
before this level's regular files, and propagate a read failure of any
visited directory. -/
def searchFilesSpec (include_hidden_files : Bool) (dir : String)
    (t : Entry) : Except SystemError (List String) :=
  match t with
  | .efile _ => .error (.UnableToReadDir dir)
  | .eerr => .error (.UnableToReadDir dir)
  | .edir _ false _ => .error (.UnableToReadDir dir)
  | .edir _ true children =>
    let kept := (children.filter (fun c => !c.isErr)).filter
      (fun c => include_hidden_files || !startsWithDot c.name)
    let sorted := insertionSortB entryLe kept
    let dirResults := (sorted.filter (fun c => c.isDir)).attach.map
      (fun ce => searchFilesSpec include_hidden_files
        (dir ++ "/" ++ ce.1.name) ce.1)
    match seqResults dirResults with
    | .error e => .error e
    | .ok dirFiles =>
      .ok (dirFiles ++ sorted.filterMap
        (fun c => if c.isFile then some (dir ++ "/" ++ c.name) else none))
termination_by sizeOf t
decreasing_by
  have h1 : ce.1 ∈ insertionSortB entryLe kept := List.mem_of_mem_filter ce.2
  have h1b : ce.1 ∈ kept := mem_of_insertionSortB entryLe _ _ h1
  have h2 : ce.1 ∈ children :=
    List.mem_of_mem_filter (List.mem_of_mem_filter h1b)
  have h3 := List.sizeOf_lt_of_mem h2
  simp only [Entry.edir.sizeOf_spec]
  omega

/-- Canonical form of a tree: drop errored entries, forget the children
of unreadable directories, and sort every readable directory's children
by name.  Two trees with the same canonical form describe the same
directory contents presented in possibly different readdir orders. -/
def canon : Entry → Entry
  | .efile n => .efile n
  | .eerr => .eerr
  | .edir n false _ => .edir n false []
  | .edir n true children =>
    .edir n true (insertionSortB entryLe
      ((children.filter (fun c => !c.isErr)).attach.map
        (fun ce => canon ce.1)))
termination_by t => sizeOf t
decreasing_by
  have h2 : ce.1 ∈ children := List.mem_of_mem_filter ce.2
  have h3 := List.sizeOf_lt_of_mem h2
  simp only [Entry.edir.sizeOf_spec]
  omega

/-- Well-formedness of a tree as a filesystem snapshot: within any
readable directory, the (non-errored) entries carry pairwise distinct
base names — as actual directories do. -/
inductive NodupNames : Entry → Prop where
  | efile (n : String) : NodupNames (.efile n)
  | eerr : NodupNames .eerr
  | edirUnreadable (n : String) (cs : List Entry) :
      NodupNames (.edir n false cs)
  | edirReadable (n : String) (cs : List Entry) :
      ((cs.filter (fun c => !c.isErr)).map Entry.name).Nodup →
      (∀ c ∈ cs, NodupNames c) →
      NodupNames (.edir n true cs)

/-- A scan of this tree attempts and fails to read a directory: either
the tree itself is an unreadable directory, or some listed, non-hidden
(unless hidden files are included) child directory recursively is. -/
inductive ReadFails (include_hidden_files : Bool) : Entry → Prop where
  | here (n : String) (cs : List Entry) :
      ReadFails include_hidden_files (.edir n false cs)
  | child (n : String) (cs : List Entry) (c : Entry) :
      c ∈ cs → c.isErr = false →
      (include_hidden_files || !startsWithDot c.name) = true →
      ReadFails include_hidden_files c →
      ReadFails include_hidden_files (.edir n true cs)

/-! ## Theorems -/

theorem lexLe_total : ∀ xs ys : List Char, lexLe xs ys || lexLe ys xs
  | [], _ => by simp [lexLe]
  | _ :: _, [] => by simp [lexLe]
  | a :: as, b :: bs => by
    simp only [lexLe]
    rcases Nat.lt_trichotomy a.toNat b.toNat with h | h | h
    · simp [h]
    · simpa [h, Nat.lt_irrefl] using lexLe_total as bs
    · simp [h, Nat.lt_asymm h]

theorem lexLe_trans : ∀ xs ys zs : List Char,
    lexLe xs ys = true → lexLe ys zs = true → lexLe xs zs = true
  | [], _, _ => by intros; simp [lexLe]
  | _ :: _, [], _ => by intro h; simp [lexLe] at h
  | _ :: _, _ :: _, [] => by intro _ h; simp [lexLe] at h
  | a :: as, b :: bs, c :: cs => by
    intro h₁ h₂
    simp only [lexLe] at h₁ h₂ ⊢
    rcases Nat.lt_trichotomy a.toNat b.toNat with hab | hab | hab <;>
      rcases Nat.lt_trichotomy b.toNat c.toNat with hbc | hbc | hbc <;>
      simp_all [Nat.lt_irrefl, Nat.lt_asymm] <;>
      first
        | exact Nat.lt_trans hab hbc
        | exact lexLe_trans as bs cs h₁ h₂
        | omega

theorem lexLe_antisymm : ∀ xs ys : List Char,
    lexLe xs ys = true → lexLe ys xs = true → xs = ys
  | [], [] => by intros; rfl
  | [], _ :: _ => by intro _ h; simp [lexLe] at h
  | _ :: _, [] => by intro h _; simp [lexLe] at h
  | a :: as, b :: bs => by
    intro h₁ h₂
    simp only [lexLe] at h₁ h₂
    rcases Nat.lt_trichotomy a.toNat b.toNat with hab | hab | hab
    · simp [hab, Nat.lt_asymm hab] at h₂
    · have ha : a = b := Char.eq_of_val_eq (UInt32.ext hab)
      have := lexLe_antisymm as bs (by simpa [hab, Nat.lt_irrefl] using h₁)
        (by simpa [hab, Nat.lt_irrefl] using h₂)
      rw [ha, this]
    · simp [hab, Nat.lt_asymm hab] at h₁

/-- Characterization of the thirteen-arm match of `manage_hash`: a
recognized identifier hashes the file, an unrecognized one fails with
`UnsupportedHashAlgorithm`. -/
theorem manage_hash_eq (digest : DigestFn) (fs : FileSys) (file hash : String) :
    manage_hash digest fs file hash =
      if hash ∈ supportedAlgorithms then
        retOk (hash_with_digest (digest hash) fs file)
      else .ret (.error (.UnsupportedHashAlgorithm hash)) := by
  unfold manage_hash
  split <;> simp_all [supportedAlgorithms]

/-- C3: the claim states that a file that cannot be opened or read yields
no digest and the hashing run continues (the failure is absorbed).  The
code instead calls `File::open(path).unwrap()` and `read(..).unwrap()`
inside `hash_with_digest`, so an unreadable file panics the worker thread
and the whole scheduling operation fails with `ThreadError` — the caller
`hash_handler` is even written to absorb a digest-less result, which the
panic never lets it do. -/
theorem read_failure_panics :
    hash_with_digest (fun c => c) (fun _ => none) "/d/f" = .panicked
    ∧ manage_hash (fun _ c => c) (fun _ => none) "/d/f" "md5" = .panicked
    ∧ hash_handler_mut (fun _ c => c) (fun _ => none) 1 ["md5"]
        [⟨"f", 0, "/d/f", none⟩]
      = (.error (.SystemError .ThreadError), [⟨"f", 0, "/d/f", none⟩]) :=
  ⟨rfl, rfl, by rfl⟩

/-- C1: the claim states that in hash mode the grouping key is the
sorted-by-algorithm-identifier concatenation of `algorithm:digest` pairs,
so that two records whose checksum maps are equal as sets of pairs always
receive the same key.  The code computes the key by iterating the map in
its internal order without sorting: the two records below have checksum
maps that are permutations of each other (equal as sets of pairs), yet
their keys differ and `search_eventual_duplicates` places them in two
distinct groups. -/
theorem hash_key_iteration_order_dependent :
    ([("md5", "a"), ("sha1", "b")] : List (String × String)).Perm
        [("sha1", "b"), ("md5", "a")]
    ∧ hashModeKey [("md5", "a"), ("sha1", "b")]
        ≠ hashModeKey [("sha1", "b"), ("md5", "a")]
    ∧ (search_eventual_duplicates
        [⟨"f.txt", 3, "/a/f.txt", some [("md5", "a"), ("sha1", "b")]⟩,
         ⟨"f.txt", 3, "/b/f.txt", some [("sha1", "b"), ("md5", "a")]⟩]
        ⟨"/", false, false, some ["md5", "sha1"]⟩).length = 2 :=
  ⟨List.Perm.swap ("sha1", "b") ("md5", "a") [], by decide, by decide⟩

/-- C2 (counterexample): the claim states that the grouper's result
contains only groups with more than one path and that a catalog holding a
single unique file in hash mode yields an empty result.  The code performs
no singleton filtering (`map.into_values().collect()`): for one unique
file the result is one group whose path set has exactly one element. -/
theorem singleton_not_filtered :
    (search_eventual_duplicates
        [⟨"a.txt", 5, "/d/a.txt", some [("md5", "d1")]⟩]
        ⟨"/", false, false, some ["md5"]⟩).map (fun g => g.paths.length)
      = [1] := by decide

/-- C2 (amended): the grouper performs no singleton filtering: every
distinct key yields a group, including groups with a single member; in
particular a catalog containing a single file with a checksum map in hash
mode returns exactly that file's singleton group with one path and one
occurrence. -/
theorem singleton_group_returned (nm pth : String) (sz : Nat)
    (cs : List (String × String)) (config : FindingConfig)
    (h : config.enable_search_by_name = false) :
    search_eventual_duplicates [⟨nm, sz, pth, some cs⟩] config
      = [⟨[pth], nm, some cs, 1, sz⟩] := by
  simp [search_eventual_duplicates, groupStep, h, upsertGroup, insertPath]

/-- C2 (amended, witness): the amended statement evaluated on a concrete
single-record catalog in hash mode. -/
theorem singleton_group_returned_witness :
    search_eventual_duplicates
        [⟨"a.txt", 5, "/d/a.txt", some [("md5", "d1")]⟩]
        ⟨"/", false, false, some ["md5"]⟩
      = [⟨["/d/a.txt"], "a.txt", some [("md5", "d1")], 1, 5⟩] :=
  singleton_group_returned "a.txt" "/d/a.txt" 5 [("md5", "d1")]
    ⟨"/", false, false, some ["md5"]⟩ rfl

theorem le_mul_divCeil (n C : Nat) (hC : 1 ≤ C) : n ≤ C * divCeil n C := by
  unfold divCeil
  have h1 := Nat.div_add_mod (n + C - 1) C
  have h2 : (n + C - 1) % C < C := Nat.mod_lt _ (by omega)
  omega

theorem spawnChunks_flatMap (n cs : Nat) :
    ∀ (c i : Nat), n ≤ (i + c) * cs →
      (spawnChunks n cs i c).flatMap (fun se => List.range' se.1 (se.2 - se.1))
        = List.range' (i * cs) (n - i * cs)
  | 0, i => by
    intro h
    have h0 : n - i * cs = 0 := by
      have he : (i + 0) * cs = i * cs := by ring
      omega
    simp [spawnChunks, h0]
  | c + 1, i => by
    intro h
    have hstep : (i + 1) * cs = i * cs + cs := by ring
    simp only [spawnChunks]
    by_cases he : min ((i + 1) * cs) n ≤ i * cs
    · have hn : n ≤ i * cs := by
        rcases Nat.le_total n ((i + 1) * cs) with h1 | h1
        · have hm := Nat.min_eq_right h1
          omega
        · have hm := Nat.min_eq_left h1
          have hcs : cs = 0 := by omega
          have hz : (i + (c + 1)) * cs = 0 := by rw [hcs]; ring
          omega
      simp [he, Nat.sub_eq_zero_of_le hn]
    · rw [if_neg (by omega)]
      rw [List.flatMap_cons]
      have hrec : n ≤ (i + 1 + c) * cs := by
        have hr : (i + (c + 1)) * cs = (i + 1 + c) * cs := by ring
        omega
      rw [spawnChunks_flatMap n cs c (i + 1) hrec]
      rcases Nat.le_total n ((i + 1) * cs) with h1 | h1
      · rw [Nat.min_eq_right h1]
        have hz : n - (i + 1) * cs = 0 := Nat.sub_eq_zero_of_le h1
        simp [hz]
      · rw [Nat.min_eq_left h1]
        have hsub : (i + 1) * cs - i * cs = cs := by omega
        rw [hsub, hstep, List.range'_append_1]
        congr 1
        omega

theorem spawnChunks_bounds (n cs : Nat) :
    ∀ (c i : Nat), ∀ se ∈ spawnChunks n cs i c,
      se.1 < se.2 ∧ se.2 ≤ n ∧ se.2 - se.1 ≤ cs
  | 0, _ => by simp [spawnChunks]
  | c + 1, i => by
    intro se hse
    simp only [spawnChunks] at hse
    by_cases he : min ((i + 1) * cs) n ≤ i * cs
    · simp [he] at hse
    · rw [if_neg (by omega)] at hse
      rcases List.mem_cons.mp hse with h1 | h1
      · subst h1
        have hstep : (i + 1) * cs = i * cs + cs := by ring
        have hmr := Nat.min_le_right ((i + 1) * cs) n
        have hml := Nat.min_le_left ((i + 1) * cs) n
        exact ⟨by omega, hmr, by simp; omega⟩
      · exact spawnChunks_bounds n cs c (i + 1) se h1

theorem spawnChunks_ne_nil_lt (n cs c i : Nat)
    (h : spawnChunks n cs i c ≠ []) : i * cs < n := by
  cases c with
  | zero => simp [spawnChunks] at h
  | succ c =>
    simp only [spawnChunks] at h
    by_cases he : min ((i + 1) * cs) n ≤ i * cs
    · simp [he] at h
    · have := Nat.min_le_right ((i + 1) * cs) n
      omega

theorem spawnChunks_dropLast (n cs : Nat) :
    ∀ (c i : Nat), ∀ se ∈ (spawnChunks n cs i c).dropLast, se.2 - se.1 = cs
  | 0, _ => by simp [spawnChunks]
  | c + 1, i => by
    intro se hse
    simp only [spawnChunks] at hse
    by_cases he : min ((i + 1) * cs) n ≤ i * cs
    · simp [he] at hse
    · rw [if_neg (by omega)] at hse
      rcases hrest : spawnChunks n cs (i + 1) c with _ | ⟨r0, rtail⟩
      · rw [hrest] at hse; simp at hse
      · rw [hrest, List.dropLast_cons₂] at hse
        rcases List.mem_cons.mp hse with h1 | h1
        · subst h1
          have hne : spawnChunks n cs (i + 1) c ≠ [] := by rw [hrest]; simp
          have hlt := spawnChunks_ne_nil_lt n cs c (i + 1) hne
          have hm : min ((i + 1) * cs) n = (i + 1) * cs :=
            Nat.min_eq_left (by omega)
          have hstep : (i + 1) * cs = i * cs + cs := by ring
          simp [hm]
          omega
        · exact spawnChunks_dropLast n cs c (i + 1) se (hrest ▸ h1)

theorem length_le_sum_sizes : ∀ l : List (Nat × Nat),
    (∀ se ∈ l, 1 ≤ se.2 - se.1) →
    l.length ≤ (l.map (fun se => se.2 - se.1)).sum
  | [] => by simp
  | se :: rest => by
    intro h
    simp only [List.length_cons, List.map_cons, List.sum_cons]
    have h1 := h se (by simp)
    have h2 := length_le_sum_sizes rest
      (fun x hx => h x (List.mem_cons_of_mem _ hx))
    omega

/-- C7: for every record count `n` and processor count `C ≥ 1`, the
pass partition of `hash_handler` consists of contiguous chunks exactly
covering indices `0..n` in order, every spawned chunk is non-empty and
within bounds, all chunks have size `ceil(n/C)` except possibly a smaller
last one, `n = 0` spawns no workers, and `n < C` spawns fewer than `C`
workers. -/
theorem chunk_partition (n C : Nat) (hC : 1 ≤ C) :
    ((chunksOf n C).flatMap (fun se => List.range' se.1 (se.2 - se.1))
        = List.range n)
    ∧ (∀ se ∈ chunksOf n C, se.1 < se.2 ∧ se.2 ≤ n)
    ∧ (∀ se ∈ chunksOf n C, se.2 - se.1 ≤ divCeil n C)
    ∧ (∀ se ∈ (chunksOf n C).dropLast, se.2 - se.1 = divCeil n C)
    ∧ (n = 0 → chunksOf n C = [])
    ∧ (n < C → (chunksOf n C).length < C) := by
  have hcover : (chunksOf n C).flatMap
      (fun se => List.range' se.1 (se.2 - se.1)) = List.range n := by
    have h0 : n ≤ (0 + C) * divCeil n C := by
      have h1 := le_mul_divCeil n C hC
      have h2 : (0 + C) * divCeil n C = C * divCeil n C := by ring
      omega
    have := spawnChunks_flatMap n (divCeil n C) C 0 h0
    simpa [chunksOf, List.range_eq_range'] using this
  refine ⟨hcover, ?_, ?_, ?_, ?_, ?_⟩
  · intro se hse
    have h := spawnChunks_bounds n (divCeil n C) C 0 se hse
    exact ⟨h.1, h.2.1⟩
  · intro se hse
    exact (spawnChunks_bounds n (divCeil n C) C 0 se hse).2.2
  · intro se hse
    exact spawnChunks_dropLast n (divCeil n C) C 0 se hse
  · intro h0
    subst h0
    have hcs : divCeil 0 C = 0 := by
      unfold divCeil
      exact Nat.div_eq_of_lt (by omega)
    cases C with
    | zero => omega
    | succ c => simp [chunksOf, hcs, spawnChunks]
  · intro hnC
    have hsum : ((chunksOf n C).map (fun se => se.2 - se.1)).sum = n := by
      have h1 := congrArg List.length hcover
      simpa [List.flatMap, List.length_flatten, List.map_map,
        Function.comp_def, List.length_range'] using h1
    have hone : ∀ se ∈ chunksOf n C, 1 ≤ se.2 - se.1 := by
      intro se hse
      have := (spawnChunks_bounds n (divCeil n C) C 0 se hse).1
      omega
    have := length_le_sum_sizes (chunksOf n C) hone
    omega

/-- C7 (witness): the partition properties evaluated at five records and
two processors. -/
theorem chunk_partition_witness :
    ((chunksOf 5 2).flatMap (fun se => List.range' se.1 (se.2 - se.1))
        = List.range 5)
    ∧ (∀ se ∈ chunksOf 5 2, se.1 < se.2 ∧ se.2 ≤ 5)
    ∧ (∀ se ∈ chunksOf 5 2, se.2 - se.1 ≤ divCeil 5 2)
    ∧ (∀ se ∈ (chunksOf 5 2).dropLast, se.2 - se.1 = divCeil 5 2)
    ∧ (5 = 0 → chunksOf 5 2 = [])
    ∧ (5 < 2 → (chunksOf 5 2).length < 2) :=
  chunk_partition 5 2 (by decide)

theorem spawnChunks_slices (l : List VirtualFile) (cs : Nat) :
    ∀ (c i : Nat), l.length ≤ (i + c) * cs →
      (spawnChunks l.length cs i c).flatMap (fun se => slice se.1 se.2 l)
        = l.drop (i * cs)
  | 0, i => by
    intro h
    have h0 : l.length ≤ i * cs := by
      have he : (i + 0) * cs = i * cs := by ring
      omega
    simp [spawnChunks, List.drop_eq_nil_of_le h0]
  | c + 1, i => by
    intro h
    have hstep : (i + 1) * cs = i * cs + cs := by ring
    simp only [spawnChunks]
    by_cases he : min ((i + 1) * cs) l.length ≤ i * cs
    · have hn : l.length ≤ i * cs := by
        rcases Nat.le_total l.length ((i + 1) * cs) with h1 | h1
        · have hm := Nat.min_eq_right h1
          omega
        · have hm := Nat.min_eq_left h1
          have hcs : cs = 0 := by omega
          have hz : (i + (c + 1)) * cs = 0 := by rw [hcs]; ring
          omega
      simp [he, List.drop_eq_nil_of_le hn]
    · rw [if_neg (by omega)]
      rw [List.flatMap_cons]
      have hrec : l.length ≤ (i + 1 + c) * cs := by
        have hr : (i + (c + 1)) * cs = (i + 1 + c) * cs := by ring
        omega
      rw [spawnChunks_slices l cs c (i + 1) hrec]
      rcases Nat.le_total l.length ((i + 1) * cs) with h1 | h1
      · rw [Nat.min_eq_right h1]
        have hz : l.drop ((i + 1) * cs) = [] := List.drop_eq_nil_of_le h1
        rw [hz, List.append_nil]
        show (l.drop (i * cs)).take (l.length - i * cs) = l.drop (i * cs)
        exact List.take_of_length_le (by simp)
      · rw [Nat.min_eq_left h1]
        show (l.drop (i * cs)).take ((i + 1) * cs - i * cs)
            ++ l.drop ((i + 1) * cs) = l.drop (i * cs)
        have hsub : (i + 1) * cs - i * cs = cs := by omega
        rw [hsub, hstep, ← List.drop_drop, List.take_append_drop]

/-- A worker pass for an unsupported algorithm leaves its chunk
untouched: each per-record `UnsupportedHashAlgorithm` error is absorbed
by the worker's `if let`. -/
theorem workerLoop_unsupported (digest : DigestFn) (fs : FileSys)
    (hash : String) (h : hash ∉ supportedAlgorithms) :
    ∀ chunk, workerLoop digest fs hash chunk = .ret chunk
  | [] => rfl
  | f :: rest => by
    simp only [workerLoop, manage_hash_eq, if_neg h,
      workerLoop_unsupported digest fs hash h rest]

/-- A worker whose chunk contains an unreadable file panics when the
algorithm is recognized (the `unwrap` in `hash_with_digest`). -/
theorem workerLoop_panicked (digest : DigestFn) (fs : FileSys)
    (hash : String) (h : hash ∈ supportedAlgorithms) :
    ∀ chunk, (∃ f ∈ chunk, fs f.full_path = none) →
      workerLoop digest fs hash chunk = .panicked
  | [], h0 => by simp at h0
  | f :: rest, h0 => by
    simp only [workerLoop, manage_hash_eq, if_pos h]
    cases hfs : fs f.full_path with
    | none => simp [hash_with_digest, hfs, retOk]
    | some c =>
      have hrest : ∃ g ∈ rest, fs g.full_path = none := by
        rcases h0 with ⟨g, hg, hgn⟩
        rcases List.mem_cons.mp hg with rfl | hg2
        · rw [hfs] at hgn; cases hgn
        · exact ⟨g, hg2, hgn⟩
      simp [hash_with_digest, hfs, retOk,
        workerLoop_panicked digest fs hash h rest hrest]

/-- Joining a list of worker results that contains a panicked one fails
with `ThreadError`. -/
theorem joinLoop_panicked_mem (hash : String) :
    ∀ (results : List (RustOutcome (List VirtualFile)))
      (updated : List VirtualFile), .panicked ∈ results →
      joinLoop hash updated results = .error (.SystemError .ThreadError)
  | [], _, h => by simp at h
  | r :: rest, updated, h => by
    cases r with
    | panicked => rfl
    | ret chunk =>
      have hrest : RustOutcome.panicked ∈ rest := by
        rcases List.mem_cons.mp h with h1 | h1
        · cases h1
        · exact h1
      simpa [joinLoop] using
        joinLoop_panicked_mem hash rest (mergeChunk hash updated chunk) hrest

/-- Joining all-successful worker results merges the chunks in order. -/
theorem joinLoop_map_ret (hash : String) :
    ∀ (chunks : List (List VirtualFile)) (updated : List VirtualFile),
      joinLoop hash updated (chunks.map RustOutcome.ret)
        = .ok (chunks.foldl (mergeChunk hash) updated)
  | [], _ => rfl
  | ch :: rest, updated => by
    simpa [joinLoop] using joinLoop_map_ret hash rest (mergeChunk hash updated ch)

/-- Merging a record whose path is absent from the accumulator appends
it; folding records with pairwise distinct paths therefore preserves the
list. -/
theorem foldl_mergeFile_nodup (hash : String) :
    ∀ (l updated : List VirtualFile),
      (((updated ++ l).map VirtualFile.full_path).Nodup) →
      l.foldl (mergeFile hash) updated = updated ++ l
  | [], updated => by simp
  | f :: rest, updated => by
    intro h
    have hmap : ((updated.map VirtualFile.full_path)
        ++ (f.full_path :: rest.map VirtualFile.full_path)).Nodup := by
      simpa using h
    have hdisj := (List.nodup_append.mp hmap).2.2
    have hnot : f.full_path ∉ updated.map VirtualFile.full_path := by
      intro hin
      exact hdisj hin (by simp)
    have hany : (updated.any (fun g => g.full_path == f.full_path)) = false := by
      rw [List.any_eq_false]
      intro g hg
      simp only [beq_iff_eq]
      intro heq
      exact hnot (heq ▸ List.mem_map_of_mem VirtualFile.full_path hg)
    simp only [List.foldl_cons, mergeFile, hany]
    rw [if_neg (by simp)]
    rw [foldl_mergeFile_nodup hash rest (updated ++ [f]) (by simpa using h)]
    simp

theorem joinLoop_map_ret_fn {α : Type} (hash : String)
    (g : α → List VirtualFile) :
    ∀ (l : List α) (updated : List VirtualFile),
      joinLoop hash updated (l.map (fun x => RustOutcome.ret (g x)))
        = .ok (l.foldl (fun u x => mergeChunk hash u (g x)) updated)
  | [], _ => rfl
  | x :: rest, updated => by
    simpa [joinLoop] using
      joinLoop_map_ret_fn hash g rest (mergeChunk hash updated (g x))

theorem foldl_mergeChunk_eq_flatMap {α : Type} (hash : String)
    (g : α → List VirtualFile) :
    ∀ (l : List α) (upd : List VirtualFile),
      l.foldl (fun u x => mergeChunk hash u (g x)) upd
        = (l.flatMap g).foldl (mergeFile hash) upd
  | [], _ => rfl
  | x :: rest, upd => by
    simp only [List.foldl_cons, List.flatMap_cons, List.foldl_append]
    exact foldl_mergeChunk_eq_flatMap hash g rest (mergeChunk hash upd (g x))

/-- An algorithm pass for an unsupported identifier succeeds and, on a
catalog with pairwise distinct paths, merges exactly the unchanged
records back. -/
theorem runPass_unsupported (digest : DigestFn) (fs : FileSys) (C : Nat)
    (hash : String) (files : List VirtualFile) (hC : 1 ≤ C)
    (h : hash ∉ supportedAlgorithms)
    (hnd : ((files.map VirtualFile.full_path).Nodup)) :
    runPass digest fs C hash files [] = .ok files := by
  unfold runPass
  simp only [workerLoop_unsupported digest fs hash h]
  rw [@joinLoop_map_ret_fn (Nat × Nat) hash
    (fun se => slice se.1 se.2 files) (chunksOf files.length C) []]
  rw [@foldl_mergeChunk_eq_flatMap (Nat × Nat) hash
    (fun se => slice se.1 se.2 files) (chunksOf files.length C) []]
  have hcover : (chunksOf files.length C).flatMap
      (fun se => slice se.1 se.2 files) = files := by
    have h0 : files.length ≤ (0 + C) * divCeil files.length C := by
      have h1 := le_mul_divCeil files.length C hC
      have h2 : (0 + C) * divCeil files.length C
          = C * divCeil files.length C := by ring
      omega
    have := spawnChunks_slices files (divCeil files.length C) C 0 h0
    simpa [chunksOf] using this
  rw [hcover]
  simpa using foldl_mergeFile_nodup hash files [] (by simpa using hnd)

/-- An algorithm pass for an unsupported identifier never fails, from
any merge accumulator. -/
theorem runPass_unsupported_ok (digest : DigestFn) (fs : FileSys) (C : Nat)
    (hash : String) (files updated : List VirtualFile)
    (h : hash ∉ supportedAlgorithms) :
    ∃ v, runPass digest fs C hash files updated = .ok v := by
  unfold runPass
  simp only [workerLoop_unsupported digest fs hash h]
  exact ⟨_, @joinLoop_map_ret_fn (Nat × Nat) hash
    (fun se => slice se.1 se.2 files) (chunksOf files.length C) updated⟩

/-- Every record of the catalog lands in some spawned chunk's slice. -/
theorem mem_some_slice (files : List VirtualFile) (C : Nat) (hC : 1 ≤ C)
    {f : VirtualFile} (hf : f ∈ files) :
    ∃ se ∈ chunksOf files.length C, f ∈ slice se.1 se.2 files := by
  have h0 : files.length ≤ (0 + C) * divCeil files.length C := by
    have h1 := le_mul_divCeil files.length C hC
    have h2 : (0 + C) * divCeil files.length C
        = C * divCeil files.length C := by ring
    omega
  have hcover := spawnChunks_slices files (divCeil files.length C) C 0 h0
  have hf2 : f ∈ (chunksOf files.length C).flatMap
      (fun se => slice se.1 se.2 files) := by
    rw [show chunksOf files.length C
      = spawnChunks files.length (divCeil files.length C) 0 C from rfl]
    rw [hcover]
    simpa using hf
  rcases List.mem_flatMap.mp hf2 with ⟨se, hse, hin⟩
  exact ⟨se, hse, hin⟩

/-- A pass for a recognized algorithm over a catalog containing an
unreadable file fails with `ThreadError`: the worker owning that record
panics and its join fails. -/
theorem runPass_panics (digest : DigestFn) (fs : FileSys) (C : Nat)
    (hash : String) (files updated : List VirtualFile) (hC : 1 ≤ C)
    (hsup : hash ∈ supportedAlgorithms)
    (hfile : ∃ f ∈ files, fs f.full_path = none) :
    runPass digest fs C hash files updated
      = .error (.SystemError .ThreadError) := by
  unfold runPass
  rcases hfile with ⟨f, hf, hfn⟩
  rcases mem_some_slice files C hC hf with ⟨se, hse, hin⟩
  apply joinLoop_panicked_mem
  have : workerLoop digest fs hash (slice se.1 se.2 files) = .panicked :=
    workerLoop_panicked digest fs hash hsup _ ⟨f, hin, hfn⟩
  exact this ▸ List.mem_map_of_mem _ hse

/-- C8 (amended): `manage_hash` fails with `UnsupportedHashAlgorithm`
exactly on identifiers outside the fixed case-sensitive set and never on
identifiers inside it; but the scheduler performs no up-front validation
of the requested list: a pass for an unsupported identifier does not
fail — the per-file errors are absorbed by the workers and (on a
catalog with distinct paths) the records come back unchanged, so digests
of other requested algorithms are still computed. -/
theorem unsupported_algorithm_behavior :
    (∀ (digest : DigestFn) (fs : FileSys) (file hash : String),
        hash ∉ supportedAlgorithms →
        manage_hash digest fs file hash
          = .ret (.error (.UnsupportedHashAlgorithm hash)))
    ∧ (∀ (digest : DigestFn) (fs : FileSys) (file hash : String),
        hash ∈ supportedAlgorithms →
        ∀ e, manage_hash digest fs file hash ≠ .ret (.error e))
    ∧ (∀ (digest : DigestFn) (fs : FileSys) (C : Nat) (hash : String)
        (files : List VirtualFile), 1 ≤ C → hash ∉ supportedAlgorithms →
        ((files.map VirtualFile.full_path).Nodup) →
        hash_handler digest fs C [hash] files = .ok files) := by
  refine ⟨?_, ?_, ?_⟩
  · intro digest fs file hash h
    rw [manage_hash_eq, if_neg h]
  · intro digest fs file hash h e
    rw [manage_hash_eq, if_pos h]
    cases hfs : fs file with
    | none => simp [hash_with_digest, hfs, retOk]
    | some c => simp [hash_with_digest, hfs, retOk]
  · intro digest fs C hash files hC h hnd
    have hrp := runPass_unsupported digest fs C hash files hC h hnd
    unfold hash_handler
    simp [hash_handler_go, hrp]

/-- C8 (amended, witness): concrete evaluations — `bogus` is rejected by
`manage_hash`, `md5` never yields the unsupported-algorithm error, and a
one-record catalog survives a `bogus` pass unchanged. -/
theorem unsupported_algorithm_behavior_witness :
    manage_hash (fun _ c => c) (fun _ => some [1]) "/a" "bogus"
      = .ret (.error (.UnsupportedHashAlgorithm "bogus"))
    ∧ (∀ e, manage_hash (fun _ c => c) (fun _ => some [1]) "/a" "md5"
        ≠ .ret (.error e))
    ∧ hash_handler (fun _ c => c) (fun _ => some [1]) 1 ["bogus"]
        [⟨"a", 1, "/a", none⟩] = .ok [⟨"a", 1, "/a", none⟩] :=
  ⟨unsupported_algorithm_behavior.1 _ _ _ _ (by decide),
   unsupported_algorithm_behavior.2.1 _ _ _ _ (by decide),
   unsupported_algorithm_behavior.2.2 _ _ 1 _ _ (by decide) (by decide)
     (by decide)⟩

/-- C8 (counterexample): the claim states that a request containing the
unrecognized identifier `bogus` fails with `UnsupportedHashAlgorithm`
before any digest is computed.  Running the scheduler on
`["md5", "bogus"]` over one readable file instead succeeds, computing
and keeping the md5 digest; no error is reported at all. -/
theorem no_upfront_validation :
    hash_handler (fun _ c => c) (fun _ => some [1]) 1 ["md5", "bogus"]
        [⟨"a", 1, "/a", none⟩]
      = .ok [⟨"a", 1, "/a", some [("md5", "01")]⟩]
    ∧ "bogus" ∉ supportedAlgorithms := ⟨by rfl, by decide⟩

/-- C4: if any hashing worker fails during any pass — in this embedding
a worker panics exactly when its chunk holds a file the filesystem
cannot provide and the pass algorithm is recognized — the scheduler
returns `ThreadError` and the caller's canonical record list is left
exactly as it was: no checksum from any pass is retained. -/
theorem worker_failure_fatal (digest : DigestFn) (fs : FileSys) (C : Nat)
    (algs : List String) (files : List VirtualFile) (hC : 1 ≤ C)
    (hfile : ∃ f ∈ files, fs f.full_path = none)
    (halg : ∃ a ∈ algs, a ∈ supportedAlgorithms) :
    hash_handler_mut digest fs C algs files
      = (.error (.SystemError .ThreadError), files) := by
  suffices h : ∀ upd, hash_handler_go digest fs C files algs upd
      = .error (.SystemError .ThreadError) by
    unfold hash_handler_mut hash_handler
    rw [h []]
  induction algs with
  | nil => simp at halg
  | cons a rest ih =>
    intro upd
    simp only [hash_handler_go]
    by_cases ha : a ∈ supportedAlgorithms
    · rw [runPass_panics digest fs C a files upd hC ha hfile]
    · have hrest : ∃ b ∈ rest, b ∈ supportedAlgorithms := by
        rcases halg with ⟨b, hb, hbs⟩
        rcases List.mem_cons.mp hb with rfl | hb2
        · exact absurd hbs ha
        · exact ⟨b, hb2, hbs⟩
      rcases runPass_unsupported_ok digest fs C a files upd ha with ⟨v, hv⟩
      rw [hv]
      exact ih hrest v

/-- C4 (witness): two files, one unreadable, two cores, passes
`["bogus", "sha1"]`: the run fails with `ThreadError` and the caller's
record list is returned untouched. -/
theorem worker_failure_fatal_witness :
    hash_handler_mut (fun _ c => c)
        (fun p => if p = "/ok" then some [2] else none) 2 ["bogus", "sha1"]
        [⟨"ok", 1, "/ok", none⟩, ⟨"bad", 1, "/bad", none⟩]
      = (.error (.SystemError .ThreadError),
         [⟨"ok", 1, "/ok", none⟩, ⟨"bad", 1, "/bad", none⟩]) :=
  worker_failure_fatal _ _ 2 _ _ (by decide)
    ⟨⟨"bad", 1, "/bad", none⟩, by decide⟩ ⟨"sha1", by decide⟩

/-- Entries produced by `insertChecksum` are the inserted pair or an
entry of the original map. -/
theorem mem_insertChecksum :
    ∀ (m : List (String × String)) (alg d : String) (p : String × String),
      p ∈ insertChecksum m alg d → p = (alg, d) ∨ p ∈ m
  | [], alg, d, p => by simp [insertChecksum]
  | (k, v) :: rest, alg, d, p => by
    simp only [insertChecksum]
    by_cases hk : k = alg
    · subst hk
      rw [if_pos rfl]
      intro hp
      rcases List.mem_cons.mp hp with h1 | h1
      · exact Or.inl (by simpa using h1)
      · exact Or.inr (List.mem_cons_of_mem _ h1)
    · rw [if_neg hk]
      intro hp
      rcases List.mem_cons.mp hp with h1 | h1
      · exact Or.inr (by simp [h1])
      · rcases mem_insertChecksum rest alg d p h1 with h2 | h2
        · exact Or.inl h2
        · exact Or.inr (List.mem_cons_of_mem _ h2)

/-- What one pass's worker leaves in a record that entered with no
checksum map: either it still has none (absorbed error) or exactly the
singleton map for this pass's algorithm with the digest computed from
the file's actual content. -/
def WorkerOut (digest : DigestFn) (fs : FileSys) (hash : String)
    (f : VirtualFile) : Prop :=
  f.checksums = none
    ∨ ∃ c, fs f.full_path = some c
        ∧ f.checksums = some [(hash, hexEncode (digest hash c))]

theorem workerLoop_ret_sound (digest : DigestFn) (fs : FileSys)
    (hash : String) :
    ∀ (chunk out : List VirtualFile), (∀ f ∈ chunk, f.checksums = none) →
      workerLoop digest fs hash chunk = .ret out →
      ∀ f' ∈ out, WorkerOut digest fs hash f'
  | [], out, _, hret => by
    cases hret
    simp
  | f :: rest, out, h0, hret => by
    have hf0 : f.checksums = none := h0 f (by simp)
    have hrest0 : ∀ g ∈ rest, g.checksums = none :=
      fun g hg => h0 g (List.mem_cons_of_mem _ hg)
    rw [workerLoop, manage_hash_eq] at hret
    by_cases hs : hash ∈ supportedAlgorithms
    · rw [if_pos hs] at hret
      cases hfs : fs f.full_path with
      | none => rw [hash_with_digest] at hret; rw [hfs] at hret; cases hret
      | some c =>
        rw [hash_with_digest] at hret
        rw [hfs] at hret
        simp only [retOk] at hret
        cases hrec : workerLoop digest fs hash rest with
        | panicked => rw [hrec] at hret; cases hret
        | ret rest' =>
          rw [hrec] at hret
          cases hret
          intro f' hf'
          rcases List.mem_cons.mp hf' with rfl | h1
          · refine Or.inr ⟨c, ?_, ?_⟩
            · simpa [VirtualFile.update_checksum] using hfs
            · simp [VirtualFile.update_checksum, hf0, insertChecksum]
          · exact workerLoop_ret_sound digest fs hash rest rest' hrest0 hrec f' h1
    · rw [if_neg hs] at hret
      simp only at hret
      cases hrec : workerLoop digest fs hash rest with
      | panicked => rw [hrec] at hret; cases hret
      | ret rest' =>
        rw [hrec] at hret
        cases hret
        intro f' hf'
        rcases List.mem_cons.mp hf' with rfl | h1
        · exact Or.inl hf0
        · exact workerLoop_ret_sound digest fs hash rest rest' hrest0 hrec f' h1

theorem updateFirst_sound (digest : DigestFn) (fs : FileSys)
    (hash : String) (file : VirtualFile)
    (hfile : WorkerOut digest fs hash file) :
    ∀ (upd : List VirtualFile), (∀ g ∈ upd, ChecksumSound digest fs g) →
      ∀ x ∈ updateFirst upd file hash, ChecksumSound digest fs x
  | [], _ => by simp [updateFirst]
  | g :: rest, hupd => by
    have hg := hupd g (by simp)
    have hrest : ∀ y ∈ rest, ChecksumSound digest fs y :=
      fun y hy => hupd y (List.mem_cons_of_mem _ hy)
    intro x hx
    rw [updateFirst] at hx
    by_cases hp : g.full_path = file.full_path
    · rw [if_pos hp] at hx
      rcases List.mem_cons.mp hx with rfl | h1
      · cases hcs : file.checksums with
        | none => simpa [hcs] using hg
        | some cs =>
          rcases hfile with hnone | ⟨c, hfs, hsome⟩
          · rw [hcs] at hnone; cases hnone
          · rw [hcs] at hsome
            injection hsome with hsome
            subst hsome
            simp only [hcs]
            intro p hp2
            simp only [VirtualFile.update_checksum, Option.getD_some] at hp2 ⊢
            have hlk : (List.lookup hash
                [(hash, hexEncode (digest hash c))]).getD "" =
                hexEncode (digest hash c) := by simp [List.lookup]
            rw [hlk] at hp2
            rcases mem_insertChecksum _ _ _ _ hp2 with rfl | h3
            · exact ⟨c, by rw [hp]; exact hfs, rfl⟩
            · exact hg p h3
      · exact hrest x h1
    · rw [if_neg hp] at hx
      rcases List.mem_cons.mp hx with rfl | h1
      · exact hg
      · exact updateFirst_sound digest fs hash file hfile rest hrest x h1

theorem mergeFile_sound (digest : DigestFn) (fs : FileSys) (hash : String)
    (upd : List VirtualFile) (file : VirtualFile)
    (hupd : ∀ g ∈ upd, ChecksumSound digest fs g)
    (hfile : WorkerOut digest fs hash file) :
    ∀ x ∈ mergeFile hash upd file, ChecksumSound digest fs x := by
  intro x hx
  rw [mergeFile] at hx
  by_cases hany : (upd.any (fun f => f.full_path == file.full_path)) = true
  · rw [if_pos hany] at hx
    exact updateFirst_sound digest fs hash file hfile upd hupd x hx
  · rw [if_neg hany] at hx
    rcases List.mem_append.mp hx with h1 | h1
    · exact hupd x h1
    · have hxf : x = file := by simpa using h1
      subst hxf
      rcases hfile with hnone | ⟨c, hfs, hsome⟩
      · intro p hp
        rw [hnone] at hp
        simp at hp
      · intro p hp
        rw [hsome] at hp
        simp only [Option.getD_some, List.mem_singleton] at hp
        subst hp
        exact ⟨c, hfs, rfl⟩

theorem mergeChunk_sound (digest : DigestFn) (fs : FileSys) (hash : String) :
    ∀ (chunk upd : List VirtualFile),
      (∀ g ∈ upd, ChecksumSound digest fs g) →
      (∀ f ∈ chunk, WorkerOut digest fs hash f) →
      ∀ x ∈ mergeChunk hash upd chunk, ChecksumSound digest fs x
  | [], upd, hupd, _ => by simpa [mergeChunk] using hupd
  | f :: rest, upd, hupd, hchunk => by
    have hstep := mergeFile_sound digest fs hash upd f hupd (hchunk f (by simp))
    exact mergeChunk_sound digest fs hash rest (mergeFile hash upd f) hstep
      (fun g hg => hchunk g (List.mem_cons_of_mem _ hg))

theorem joinLoop_sound (digest : DigestFn) (fs : FileSys) (hash : String) :
    ∀ (results : List (RustOutcome (List VirtualFile)))
      (upd v : List VirtualFile),
      (∀ g ∈ upd, ChecksumSound digest fs g) →
      (∀ r ∈ results, ∀ out, r = .ret out →
        ∀ f ∈ out, WorkerOut digest fs hash f) →
      joinLoop hash upd results = .ok v →
      ∀ x ∈ v, ChecksumSound digest fs x
  | [], upd, v, hupd, _, hok => by
    cases hok
    exact hupd
  | r :: rest, upd, v, hupd, hres, hok => by
    cases r with
    | panicked => cases hok
    | ret chunk =>
      have hchunk := hres _ (by simp) chunk rfl
      have hmerged := mergeChunk_sound digest fs hash chunk upd hupd hchunk
      exact joinLoop_sound digest fs hash rest (mergeChunk hash upd chunk) v
        hmerged (fun r2 hr2 => hres r2 (List.mem_cons_of_mem _ hr2)) hok

theorem runPass_sound (digest : DigestFn) (fs : FileSys) (C : Nat)
    (hash : String) (files upd v : List VirtualFile)
    (h0 : ∀ f ∈ files, f.checksums = none)
    (hupd : ∀ g ∈ upd, ChecksumSound digest fs g)
    (hok : runPass digest fs C hash files upd = .ok v) :
    ∀ x ∈ v, ChecksumSound digest fs x := by
  rw [runPass] at hok
  refine joinLoop_sound digest fs hash _ upd v hupd ?_ hok
  intro r hr out hrout f hf
  rcases List.mem_map.mp hr with ⟨se, _, hsew⟩
  have hchunk0 : ∀ g ∈ slice se.1 se.2 files, g.checksums = none := by
    intro g hg
    exact h0 g (List.mem_of_mem_drop (List.mem_of_mem_take hg))
  exact workerLoop_ret_sound digest fs hash (slice se.1 se.2 files) out
    hchunk0 (hsew.symm ▸ hrout) f hf

theorem hash_handler_go_sound (digest : DigestFn) (fs : FileSys) (C : Nat)
    (files : List VirtualFile) (h0 : ∀ f ∈ files, f.checksums = none) :
    ∀ (algs : List String) (upd v : List VirtualFile),
      (∀ g ∈ upd, ChecksumSound digest fs g) →
      hash_handler_go digest fs C files algs upd = .ok v →
      ∀ x ∈ v, ChecksumSound digest fs x
  | [], upd, v, hupd, hok => by
    cases hok
    exact hupd
  | hash :: rest, upd, v, hupd, hok => by
    rw [hash_handler_go] at hok
    cases hrp : runPass digest fs C hash files upd with
    | error e => rw [hrp] at hok; cases hok
    | ok upd' =>
      rw [hrp] at hok
      exact hash_handler_go_sound digest fs C files h0 rest upd' v
        (runPass_sound digest fs C hash files upd upd' h0 hupd hrp) hok

/-- C9: pipeline invariant — starting from catalog records with no
checksum map (as `build_virtual_files` creates them), every record the
scheduler returns has a checksum entry for an algorithm only if the file
was read successfully under that algorithm's pass, and the stored value
is the hex-encoded digest actually computed from the file's content; in
particular the merge step never inserts the `unwrap_or_default` empty
string. -/
theorem checksum_entries_sound (digest : DigestFn) (fs : FileSys) (C : Nat)
    (algs : List String) (files updated : List VirtualFile)
    (h0 : ∀ f ∈ files, f.checksums = none)
    (hok : hash_handler digest fs C algs files = .ok updated) :
    ∀ f' ∈ updated, ChecksumSound digest fs f' :=
  hash_handler_go_sound digest fs C files h0 algs [] updated (by simp) hok

/-- C9 (witness): one readable one-byte file hashed with md5; the
returned record's only entry is the actually computed digest. -/
theorem checksum_entries_sound_witness :
    (∀ f ∈ [(⟨"a", 1, "/a", none⟩ : VirtualFile)], f.checksums = none)
    ∧ ∀ f' ∈ [(⟨"a", 1, "/a", some [("md5", "01")]⟩ : VirtualFile)],
        ChecksumSound (fun _ c => c) (fun _ => some [1]) f' :=
  ⟨by decide,
   checksum_entries_sound (fun _ c => c) (fun _ => some [1]) 1 ["md5"]
     [⟨"a", 1, "/a", none⟩] [⟨"a", 1, "/a", some [("md5", "01")]⟩]
     (by decide) (by rfl)⟩

/-! ### Sorting lemmas for the boolean stable sort -/

/-- Sortedness with respect to a boolean comparator. -/
def SortedB (le : α → α → Bool) (l : List α) : Prop :=
  l.Pairwise (fun a b => le a b = true)

theorem orderedInsertB_perm (le : α → α → Bool) (a : α) :
    ∀ l : List α, (orderedInsertB le a l).Perm (a :: l)
  | [] => List.Perm.refl _
  | b :: t => by
    rw [orderedInsertB]
    by_cases h : le a b
    · rw [if_pos h]
    · rw [if_neg h]
      exact ((orderedInsertB_perm le a t).cons b).trans (List.Perm.swap a b t)

theorem insertionSortB_perm (le : α → α → Bool) :
    ∀ l : List α, (insertionSortB le l).Perm l
  | [] => List.Perm.refl _
  | a :: t =>
    (orderedInsertB_perm le a (insertionSortB le t)).trans
      ((insertionSortB_perm le t).cons a)

theorem orderedInsertB_sorted (le : α → α → Bool)
    (htot : ∀ x y, le x y || le y x)
    (htrans : ∀ x y z, le x y = true → le y z = true → le x z = true)
    (a : α) : ∀ l : List α, SortedB le l → SortedB le (orderedInsertB le a l)
  | [], _ => by simp [orderedInsertB, SortedB]
  | b :: t, hs => by
    rcases List.pairwise_cons.mp hs with ⟨hb, ht⟩
    rw [orderedInsertB]
    by_cases h : le a b
    · rw [if_pos h]
      refine List.pairwise_cons.mpr ⟨?_, hs⟩
      intro x hx
      rcases List.mem_cons.mp hx with rfl | hx2
      · exact h
      · exact htrans a b x h (hb x hx2)
    · rw [if_neg h]
      have hba : le b a = true := by
        rcases Bool.or_eq_true_iff.mp (htot a b) with h1 | h1
        · exact absurd h1 h
        · exact h1
      refine List.pairwise_cons.mpr ⟨?_, orderedInsertB_sorted le htot htrans a t ht⟩
      intro x hx
      rcases mem_of_orderedInsertB le a t x hx with rfl | hx2
      · exact hba
      · exact hb x hx2

theorem insertionSortB_sorted (le : α → α → Bool)
    (htot : ∀ x y, le x y || le y x)
    (htrans : ∀ x y z, le x y = true → le y z = true → le x z = true) :
    ∀ l : List α, SortedB le (insertionSortB le l)
  | [] => by simp [insertionSortB, SortedB]
  | a :: t =>
    orderedInsertB_sorted le htot htrans a (insertionSortB le t)
      (insertionSortB_sorted le htot htrans t)

theorem insertionSortB_of_sorted (le : α → α → Bool) :
    ∀ l : List α, SortedB le l → insertionSortB le l = l
  | [], _ => rfl
  | a :: t, hs => by
    rcases List.pairwise_cons.mp hs with ⟨ha, ht⟩
    rw [insertionSortB, insertionSortB_of_sorted le t ht]
    cases t with
    | nil => rfl
    | cons b t2 => rw [orderedInsertB, if_pos (ha b (by simp))]

theorem insertionSortB_map {α β : Type} (le : α → α → Bool)
    (le' : β → β → Bool) (g : α → β) (hg : ∀ x y, le' (g x) (g y) = le x y) :
    ∀ l : List α, insertionSortB le' (l.map g) = (insertionSortB le l).map g := by
  have hoi : ∀ (a : α) (l : List α),
      orderedInsertB le' (g a) (l.map g) = (orderedInsertB le a l).map g := by
    intro a l
    induction l with
    | nil => rfl
    | cons b t ih =>
      simp only [List.map_cons, orderedInsertB, hg]
      by_cases h : le a b
      · rw [if_pos h, if_pos h, List.map_cons, List.map_cons]
      · rw [if_neg h, if_neg h, List.map_cons, ih]
  intro l
  induction l with
  | nil => rfl
  | cons a t ih =>
    simp only [List.map_cons, insertionSortB, ih, hoi]

/-- Two sorted lists of entries that are permutations of each other and
have pairwise distinct names are equal (sorting is a canonical form in
the absence of duplicate names). -/
theorem eq_of_perm_sorted_nodup :
    ∀ l₁ l₂ : List Entry, l₁.Perm l₂ → SortedB entryLe l₁ →
      SortedB entryLe l₂ → ((l₁.map Entry.name).Nodup) → l₁ = l₂
  | [], l₂, hp, _, _, _ => by
    have h := hp.symm.eq_nil
    rw [h]
  | a :: t₁, l₂, hp, hs₁, hs₂, hnd => by
    cases l₂ with
    | nil => exact absurd hp.eq_nil (by simp)
    | cons b t₂ =>
      rcases List.pairwise_cons.mp hs₁ with ⟨ha, ht₁⟩
      rcases List.pairwise_cons.mp hs₂ with ⟨hb, ht₂⟩
      by_cases hab : a = b
      · subst hab
        have hp2 := hp.cons_inv
        have hnd2 : ((t₁.map Entry.name).Nodup) := by
          simp only [List.map_cons, List.nodup_cons] at hnd
          exact hnd.2
        rw [eq_of_perm_sorted_nodup t₁ t₂ hp2 ht₁ ht₂ hnd2]
      · exfalso
        have hain : a ∈ b :: t₂ := hp.mem_iff.mp (by simp)
        have hbin : b ∈ a :: t₁ := hp.mem_iff.mpr (by simp)
        have hat₂ : a ∈ t₂ := by
          rcases List.mem_cons.mp hain with h1 | h1
          · exact absurd h1 hab
          · exact h1
        have hbt₁ : b ∈ t₁ := by
          rcases List.mem_cons.mp hbin with h1 | h1
          · exact absurd h1.symm hab
          · exact h1
        have h1 : entryLe a b = true := ha b hbt₁
        have h2 : entryLe b a = true := hb a hat₂
        have hdata : a.name.data = b.name.data := lexLe_antisymm _ _ h1 h2
        have hname : a.name = b.name := congrArg String.mk hdata
        have hmem : a.name ∈ t₁.map Entry.name := by
          rw [hname]
          exact List.mem_map_of_mem Entry.name hbt₁
        simp only [List.map_cons, List.nodup_cons] at hnd
        exact hnd.1 hmem

theorem entryLe_total (a b : Entry) : entryLe a b || entryLe b a :=
  lexLe_total _ _

theorem entryLe_trans (a b c : Entry) :
    entryLe a b = true → entryLe b c = true → entryLe a c = true :=
  lexLe_trans _ _ _

/-- Unfolding of `search_files` on a readable directory, with the
`attach` of the termination argument removed. -/
theorem search_files_edir (ih : Bool) (dir n : String) (cs : List Entry) :
    search_files ih dir (.edir n true cs) =
      (match dirLoop (insertionSortB (fun a b => entryLe a.1 b.1)
          (((cs.filter (fun c => !c.isErr)).filter
              (fun c => ih || !startsWithDot c.name)).map
            (fun e => (e, search_files ih (dir ++ "/" ++ e.name) e))))
          (insertionSortB (fun a b => entryLe a.1 b.1)
            (((cs.filter (fun c => !c.isErr)).filter
                (fun c => ih || !startsWithDot c.name)).map
              (fun e => (e, search_files ih (dir ++ "/" ++ e.name) e)))).length with
       | .error e => .error e
       | .ok dirFiles =>
         .ok (dirFiles ++ ((insertionSortB (fun a b => entryLe a.1 b.1)
            (((cs.filter (fun c => !c.isErr)).filter
                (fun c => ih || !startsWithDot c.name)).map
              (fun e => (e, search_files ih (dir ++ "/" ++ e.name) e)))).map
                (·.1)).filterMap
           (fun c => if c.isFile then some (dir ++ "/" ++ c.name) else none))) := by
  simp only [search_files]
  rw [List.attach_map_val ((cs.filter (fun c => !c.isErr)).filter
      (fun c => ih || !startsWithDot c.name))
    (fun e => (e, search_files ih (dir ++ "/" ++ e.name) e))]

/-- Unfolding of `searchFilesSpec` on a readable directory. -/
theorem searchFilesSpec_edir (ih : Bool) (dir n : String) (cs : List Entry) :
    searchFilesSpec ih dir (.edir n true cs) =
      (match seqResults (((insertionSortB entryLe
            ((cs.filter (fun c => !c.isErr)).filter
              (fun c => ih || !startsWithDot c.name))).filter
          (fun c => c.isDir)).map
          (fun e => searchFilesSpec ih (dir ++ "/" ++ e.name) e)) with
       | .error e => .error e
       | .ok dirFiles =>
         .ok (dirFiles ++ (insertionSortB entryLe
            ((cs.filter (fun c => !c.isErr)).filter
              (fun c => ih || !startsWithDot c.name))).filterMap
           (fun c => if c.isFile then some (dir ++ "/" ++ c.name) else none))) := by
  simp only [searchFilesSpec]
  rw [List.attach_map_val ((insertionSortB entryLe
      ((cs.filter (fun c => !c.isErr)).filter
        (fun c => ih || !startsWithDot c.name))).filter (fun c => c.isDir))
    (fun e => searchFilesSpec ih (dir ++ "/" ++ e.name) e)]

/-- Unfolding of `canon` on a readable directory. -/
theorem canon_edir (n : String) (cs : List Entry) :
    canon (.edir n true cs) = .edir n true
      (insertionSortB entryLe ((cs.filter (fun c => !c.isErr)).map canon)) := by
  simp only [canon]
  rw [List.attach_map_val (cs.filter (fun c => !c.isErr)) canon]

theorem canon_name : ∀ c : Entry, (canon c).name = c.name
  | .efile _ => by simp [canon, Entry.name]
  | .eerr => by simp [canon]
  | .edir _ false _ => by simp [canon, Entry.name]
  | .edir _ true _ => by rw [canon_edir]; rfl

theorem canon_isErr : ∀ c : Entry, (canon c).isErr = c.isErr
  | .efile _ => by simp [canon, Entry.isErr]
  | .eerr => by simp [canon]
  | .edir _ false _ => by simp [canon, Entry.isErr]
  | .edir _ true _ => by rw [canon_edir]; rfl

theorem canon_isDir : ∀ c : Entry, (canon c).isDir = c.isDir
  | .efile _ => by simp [canon, Entry.isDir]
  | .eerr => by simp [canon]
  | .edir _ false _ => by simp [canon, Entry.isDir]
  | .edir _ true _ => by rw [canon_edir]; rfl

theorem canon_isFile : ∀ c : Entry, (canon c).isFile = c.isFile
  | .efile _ => by simp [canon, Entry.isFile]
  | .eerr => by simp [canon]
  | .edir _ false _ => by simp [canon, Entry.isFile]
  | .edir _ true _ => by rw [canon_edir]; rfl

/-- The counting-down loop of `search_files` collapses: both arms of its
`if index == 0` are identical, so it is exactly "recurse into the
directories in list order, propagating the first failure, concatenating
the results". -/
theorem dirLoop_eq (f : Entry → Except SystemError (List String)) :
    ∀ (l : List Entry) (k : Nat),
      dirLoop (l.map (fun e => (e, f e))) k
        = seqResults ((l.filter (fun e => e.isDir)).map f)
  | [], _ => rfl
  | e :: rest, k => by
    simp only [List.map_cons, dirLoop, ite_self]
    by_cases hd : e.isDir
    · rw [if_pos hd, List.filter_cons_of_pos (by simpa using hd), List.map_cons]
      rw [dirLoop_eq f rest (k - 1)]
      cases hfe : f e with
      | error err => simp [seqResults, hfe]
      | ok v =>
        cases hsr : seqResults ((rest.filter (fun e => e.isDir)).map f) with
        | error err => simp [seqResults, hfe, hsr]
        | ok vs => simp [seqResults, hfe, hsr]
    · rw [if_neg hd, List.filter_cons_of_neg (by simpa using hd)]
      rw [dirLoop_eq f rest (k - 1)]
      cases hsr : seqResults ((rest.filter (fun e => e.isDir)).map f) with
      | error err => simp [hsr]
      | ok vs => simp [hsr]

/-- C10: a per-entry readdir failure is silently dropped: a scan of a
readable directory whose listing contains an errored `DirEntry` result
anywhere equals the scan of the same directory without it — the rest of
the directory is still processed and only directory-open failures abort
the scan. -/
theorem per_entry_error_dropped (ih : Bool) (dir n : String)
    (cs₁ cs₂ : List Entry) :
    search_files ih dir (.edir n true (cs₁ ++ Entry.eerr :: cs₂))
      = search_files ih dir (.edir n true (cs₁ ++ cs₂)) := by
  rw [search_files_edir, search_files_edir]
  have hf : (cs₁ ++ Entry.eerr :: cs₂).filter (fun c => !c.isErr)
      = (cs₁ ++ cs₂).filter (fun c => !c.isErr) := by
    simp [List.filter_append, List.filter_cons, Entry.isErr]
  rw [hf]

theorem search_files_eq_spec_aux :
    ∀ (N : Nat) (t : Entry), sizeOf t ≤ N → ∀ (ih : Bool) (dir : String),
      search_files ih dir t = searchFilesSpec ih dir t
  | _, .efile _, _, _, _ => by simp [search_files, searchFilesSpec]
  | _, .eerr, _, _, _ => by simp [search_files, searchFilesSpec]
  | _, .edir _ false _, _, _, _ => by simp [search_files, searchFilesSpec]
  | 0, .edir n true cs, hN, _, _ => by
    exfalso
    simp only [Entry.edir.sizeOf_spec] at hN
    omega
  | N + 1, .edir n true cs, hN, ih, dir => by
    rw [search_files_edir, searchFilesSpec_edir]
    have hmapsort : insertionSortB (fun a b => entryLe a.1 b.1)
        (((cs.filter (fun c => !c.isErr)).filter
            (fun c => ih || !startsWithDot c.name)).map
          (fun e => (e, search_files ih (dir ++ "/" ++ e.name) e)))
        = (insertionSortB entryLe
            ((cs.filter (fun c => !c.isErr)).filter
              (fun c => ih || !startsWithDot c.name))).map
            (fun e => (e, search_files ih (dir ++ "/" ++ e.name) e)) :=
      insertionSortB_map entryLe (fun a b => entryLe a.1 b.1)
        (fun e => (e, search_files ih (dir ++ "/" ++ e.name) e))
        (fun _ _ => rfl) _
    rw [hmapsort]
    rw [dirLoop_eq (fun e => search_files ih (dir ++ "/" ++ e.name) e)
      (insertionSortB entryLe ((cs.filter (fun c => !c.isErr)).filter
        (fun c => ih || !startsWithDot c.name)))]
    have hcong : ((insertionSortB entryLe
          ((cs.filter (fun c => !c.isErr)).filter
            (fun c => ih || !startsWithDot c.name))).filter
          (fun e => e.isDir)).map
        (fun e => search_files ih (dir ++ "/" ++ e.name) e)
        = ((insertionSortB entryLe
            ((cs.filter (fun c => !c.isErr)).filter
              (fun c => ih || !startsWithDot c.name))).filter
            (fun e => e.isDir)).map
          (fun e => searchFilesSpec ih (dir ++ "/" ++ e.name) e) := by
      apply List.map_congr_left
      intro e he
      have he2 : e ∈ cs :=
        List.mem_of_mem_filter (List.mem_of_mem_filter
          (mem_of_insertionSortB entryLe _ _ (List.mem_of_mem_filter he)))
      have hsz : sizeOf e ≤ N := by
        have h3 := List.sizeOf_lt_of_mem he2
        simp only [Entry.edir.sizeOf_spec] at hN
        omega
      exact search_files_eq_spec_aux N e hsz ih (dir ++ "/" ++ e.name)
    rw [hcong]
    have hfst : ((insertionSortB entryLe
          ((cs.filter (fun c => !c.isErr)).filter
            (fun c => ih || !startsWithDot c.name))).map
          (fun e => (e, search_files ih (dir ++ "/" ++ e.name) e))).map (·.1)
        = insertionSortB entryLe
            ((cs.filter (fun c => !c.isErr)).filter
              (fun c => ih || !startsWithDot c.name)) := by
      rw [List.map_map]
      have hfun : ((fun x : Entry × Except SystemError (List String) => x.1)
          ∘ (fun e => (e, search_files ih (dir ++ "/" ++ e.name) e))) = id := rfl
      rw [hfun, List.map_id]
    rw [hfst]

/-- The scanner equals its specification rendering: the index-counting
loop's two identical branches collapse, and the output is the
sorted-order recursion into subdirectories followed by the level's
files. -/
theorem search_files_eq_spec (t : Entry) (ih : Bool) (dir : String) :
    search_files ih dir t = searchFilesSpec ih dir t :=
  search_files_eq_spec_aux (sizeOf t) t le_rfl ih dir

theorem filterMap_congr_mem {α β : Type} (f g : α → Option β) :
    ∀ l : List α, (∀ x ∈ l, f x = g x) → l.filterMap f = l.filterMap g
  | [], _ => rfl
  | a :: t, h => by
    rw [List.filterMap_cons, List.filterMap_cons, h a (by simp),
      filterMap_congr_mem f g t (fun x hx => h x (List.mem_cons_of_mem _ hx))]

/-- Scanning the canonical form of a well-formed tree gives the same
result as scanning the tree itself: the scanner's output does not depend
on the native readdir order. -/
theorem spec_canon_aux :
    ∀ (N : Nat) (t : Entry), sizeOf t ≤ N → NodupNames t →
      ∀ (ih : Bool) (dir : String),
        searchFilesSpec ih dir (canon t) = searchFilesSpec ih dir t
  | _, .efile _, _, _, _, _ => by simp [canon]
  | _, .eerr, _, _, _, _ => by simp [canon]
  | _, .edir _ false _, _, _, _, _ => by
    simp [canon, searchFilesSpec]
  | 0, .edir n true cs, hN, _, _, _ => by
    exfalso
    simp only [Entry.edir.sizeOf_spec] at hN
    omega
  | N + 1, .edir n true cs, hN, hnd, ih, dir => by
    have hchild : ∀ c ∈ cs, NodupNames c := by
      cases hnd with
      | edirReadable _ _ _ h2 => exact h2
    have hnodup : ((cs.filter (fun c => !c.isErr)).map Entry.name).Nodup := by
      cases hnd with
      | edirReadable _ _ h1 _ => exact h1
    rw [canon_edir, searchFilesSpec_edir, searchFilesSpec_edir]
    -- abbreviate
    have hLerr : (insertionSortB entryLe
        ((cs.filter (fun c => !c.isErr)).map canon)).filter
          (fun c => !c.isErr)
        = insertionSortB entryLe ((cs.filter (fun c => !c.isErr)).map canon) := by
      rw [List.filter_eq_self]
      intro x hx
      rcases List.mem_map.mp (mem_of_insertionSortB entryLe _ _ hx) with
        ⟨y, hy, rfl⟩
      have hyerr := List.of_mem_filter hy
      rw [canon_isErr]
      exact hyerr
    rw [hLerr]
    have hLsorted : SortedB entryLe (insertionSortB entryLe
        ((cs.filter (fun c => !c.isErr)).map canon)) :=
      insertionSortB_sorted entryLe entryLe_total entryLe_trans _
    have hLfh_sorted : SortedB entryLe ((insertionSortB entryLe
        ((cs.filter (fun c => !c.isErr)).map canon)).filter
          (fun c => ih || !startsWithDot c.name)) :=
      List.Pairwise.filter _ hLsorted
    rw [insertionSortB_of_sorted entryLe _ hLfh_sorted]
    -- key: the filtered canonical children are the canon image of the
    -- sorted kept children
    have hperm : ((insertionSortB entryLe
        ((cs.filter (fun c => !c.isErr)).map canon)).filter
          (fun c => ih || !startsWithDot c.name)).Perm
        ((insertionSortB entryLe ((cs.filter (fun c => !c.isErr)).filter
          (fun c => ih || !startsWithDot c.name))).map canon) := by
      have p1 := (insertionSortB_perm entryLe
        ((cs.filter (fun c => !c.isErr)).map canon)).filter
          (fun c => ih || !startsWithDot c.name)
      have p2 : ((cs.filter (fun c => !c.isErr)).map canon).filter
          (fun c => ih || !startsWithDot c.name)
          = ((cs.filter (fun c => !c.isErr)).filter
            (fun c => ih || !startsWithDot c.name)).map canon := by
        rw [List.filter_map]
        congr 1
        apply List.filter_congr
        intro x _
        simp [Function.comp, canon_name]
      rw [p2] at p1
      have p3 := ((insertionSortB_perm entryLe
        ((cs.filter (fun c => !c.isErr)).filter
          (fun c => ih || !startsWithDot c.name))).map canon).symm
      exact p1.trans p3
    have hmapsorted : SortedB entryLe ((insertionSortB entryLe
        ((cs.filter (fun c => !c.isErr)).filter
          (fun c => ih || !startsWithDot c.name))).map canon) := by
      apply List.Pairwise.map
      · intro a b hab
        show lexLe (canon a).name.data (canon b).name.data = true
        rw [canon_name, canon_name]
        exact hab
      · exact insertionSortB_sorted entryLe entryLe_total entryLe_trans _
    have hkn : (((cs.filter (fun c => !c.isErr)).filter
        (fun c => ih || !startsWithDot c.name)).map Entry.name).Nodup :=
      List.Nodup.sublist
        (List.Sublist.map Entry.name (List.filter_sublist _)) hnodup
    have hsortn : ((insertionSortB entryLe
        ((cs.filter (fun c => !c.isErr)).filter
          (fun c => ih || !startsWithDot c.name))).map Entry.name).Nodup :=
      List.Perm.nodup
        ((insertionSortB_perm entryLe _).map Entry.name).symm hkn
    have hmapn : (((insertionSortB entryLe
        ((cs.filter (fun c => !c.isErr)).filter
          (fun c => ih || !startsWithDot c.name))).map canon).map Entry.name)
        = ((insertionSortB entryLe
          ((cs.filter (fun c => !c.isErr)).filter
            (fun c => ih || !startsWithDot c.name))).map Entry.name) := by
      rw [List.map_map]
      apply List.map_congr_left
      intro x _
      simp [Function.comp, canon_name]
    have hnodupL : (((insertionSortB entryLe
        ((cs.filter (fun c => !c.isErr)).map canon)).filter
          (fun c => ih || !startsWithDot c.name)).map Entry.name).Nodup := by
      apply List.Perm.nodup (hperm.map Entry.name).symm
      rw [hmapn]
      exact hsortn
    have hkey : (insertionSortB entryLe
        ((cs.filter (fun c => !c.isErr)).map canon)).filter
          (fun c => ih || !startsWithDot c.name)
        = (insertionSortB entryLe ((cs.filter (fun c => !c.isErr)).filter
            (fun c => ih || !startsWithDot c.name))).map canon :=
      eq_of_perm_sorted_nodup _ _ hperm hLfh_sorted hmapsorted hnodupL
    rw [hkey]
    have hfilters : (((insertionSortB entryLe
        ((cs.filter (fun c => !c.isErr)).filter
          (fun c => ih || !startsWithDot c.name))).map canon).filter
          (fun c => c.isDir))
        = ((insertionSortB entryLe ((cs.filter (fun c => !c.isErr)).filter
            (fun c => ih || !startsWithDot c.name))).filter
          (fun c => c.isDir)).map canon := by
      rw [List.filter_map]
      congr 1
      apply List.filter_congr
      intro x _
      simp [Function.comp, canon_isDir]
    rw [hfilters]
    have hrec : (((insertionSortB entryLe
        ((cs.filter (fun c => !c.isErr)).filter
          (fun c => ih || !startsWithDot c.name))).filter
          (fun c => c.isDir)).map canon).map
        (fun e => searchFilesSpec ih (dir ++ "/" ++ e.name) e)
        = ((insertionSortB entryLe ((cs.filter (fun c => !c.isErr)).filter
            (fun c => ih || !startsWithDot c.name))).filter
          (fun c => c.isDir)).map
            (fun e => searchFilesSpec ih (dir ++ "/" ++ e.name) e) := by
      rw [List.map_map]
      apply List.map_congr_left
      intro e he
      show searchFilesSpec ih (dir ++ "/" ++ (canon e).name) (canon e)
          = searchFilesSpec ih (dir ++ "/" ++ e.name) e
      rw [canon_name]
      have he2 : e ∈ cs := List.mem_of_mem_filter (List.mem_of_mem_filter
        (mem_of_insertionSortB entryLe _ _ (List.mem_of_mem_filter he)))
      have hsz : sizeOf e ≤ N := by
        have h3 := List.sizeOf_lt_of_mem he2
        simp only [Entry.edir.sizeOf_spec] at hN
        omega
      exact spec_canon_aux N e hsz (hchild e he2) ih (dir ++ "/" ++ e.name)
    rw [hrec]
    have hfiles : ((insertionSortB entryLe
        ((cs.filter (fun c => !c.isErr)).filter
          (fun c => ih || !startsWithDot c.name))).map canon).filterMap
        (fun c => if c.isFile then some (dir ++ "/" ++ c.name) else none)
        = (insertionSortB entryLe ((cs.filter (fun c => !c.isErr)).filter
            (fun c => ih || !startsWithDot c.name))).filterMap
            (fun c => if c.isFile then some (dir ++ "/" ++ c.name) else none) := by
      rw [List.filterMap_map]
      apply filterMap_congr_mem
      intro x _
      simp [Function.comp, canon_isFile, canon_name]
    rw [hfiles]

theorem spec_canon (t : Entry) (hnd : NodupNames t) (ih : Bool)
    (dir : String) :
    searchFilesSpec ih dir (canon t) = searchFilesSpec ih dir t :=
  spec_canon_aux (sizeOf t) t le_rfl hnd ih dir

/-- C6: the scan is fully deterministic.  First conjunct: `search_files`
equals its specification rendering `searchFilesSpec` — at every readable
level the surviving entries are sorted by base name ascending byte-wise
and the subdirectories' recursive results, in that order, precede the
level's regular files.  Second conjunct: two trees describing the same
directory contents (equal canonical forms, i.e. equal up to the native
readdir order at every level) with distinct names per directory scan to
identical output lists. -/
theorem scanner_deterministic (ih : Bool) (dir : String) (t₁ t₂ : Entry)
    (h₁ : NodupNames t₁) (h₂ : NodupNames t₂) (hc : canon t₁ = canon t₂) :
    search_files ih dir t₁ = searchFilesSpec ih dir t₁
    ∧ search_files ih dir t₁ = search_files ih dir t₂ := by
  refine ⟨search_files_eq_spec t₁ ih dir, ?_⟩
  rw [search_files_eq_spec t₁ ih dir, search_files_eq_spec t₂ ih dir,
    ← spec_canon t₁ h₁ ih dir, ← spec_canon t₂ h₂ ih dir, hc]

/-- C6 (witness): two listings of the same directory in opposite native
orders scan identically and equal the specification rendering. -/
theorem scanner_deterministic_witness :
    search_files false "/r" (.edir "r" true [.efile "b", .efile "a"])
      = searchFilesSpec false "/r" (.edir "r" true [.efile "b", .efile "a"])
    ∧ search_files false "/r" (.edir "r" true [.efile "b", .efile "a"])
      = search_files false "/r" (.edir "r" true [.efile "a", .efile "b"]) :=
  scanner_deterministic false "/r" _ _
    (NodupNames.edirReadable "r" [.efile "b", .efile "a"] (by decide)
      (fun c hc => by
        rcases List.mem_cons.mp hc with rfl | hc2
        · exact NodupNames.efile _
        · rcases List.mem_cons.mp hc2 with rfl | hc3
          · exact NodupNames.efile _
          · cases hc3))
    (NodupNames.edirReadable "r" [.efile "a", .efile "b"] (by decide)
      (fun c hc => by
        rcases List.mem_cons.mp hc with rfl | hc2
        · exact NodupNames.efile _
        · rcases List.mem_cons.mp hc2 with rfl | hc3
          · exact NodupNames.efile _
          · cases hc3))
    (by
      rw [canon_edir, canon_edir]
      simp +decide [canon, insertionSortB, orderedInsertB])

/-- Sequencing results one of which is a non-success cannot succeed. -/
theorem seqResults_not_ok :
    ∀ (l : List (Except SystemError (List String)))
      (r : Except SystemError (List String)), r ∈ l →
      (∀ v, r ≠ .ok v) → ∀ v, seqResults l ≠ .ok v
  | [], _, hr, _ => by simp at hr
  | r₀ :: rest, r, hr, hnok => by
    intro v hok
    cases r₀ with
    | error e => rw [seqResults] at hok; cases hok
    | ok v₀ =>
      rw [seqResults] at hok
      rcases List.mem_cons.mp hr with rfl | hr2
      · exact hnok v₀ rfl
      · cases hsr : seqResults rest with
        | error e => rw [hsr] at hok; cases hok
        | ok vs =>
          exact seqResults_not_ok rest r hr2 hnok vs hsr

theorem readFails_isDir {ih : Bool} {t : Entry} (h : ReadFails ih t) :
    t.isDir = true := by
  cases h <;> rfl

/-- A scan that attempts to read an unreadable directory never
succeeds. -/
theorem spec_not_ok {ih : Bool} {t : Entry} (h : ReadFails ih t) :
    ∀ (dir : String) (v : List String),
      searchFilesSpec ih dir t ≠ .ok v := by
  induction h with
  | here n cs =>
    intro dir v
    simp [searchFilesSpec]
  | child n cs c hmem herr hhid hrf ihc =>
    intro dir v hok
    rw [searchFilesSpec_edir] at hok
    have hckept : c ∈ (cs.filter (fun c => !c.isErr)).filter
        (fun c => ih || !startsWithDot c.name) :=
      List.mem_filter.mpr
        ⟨List.mem_filter.mpr ⟨hmem, by simp [herr]⟩, hhid⟩
    have hcs : c ∈ insertionSortB entryLe
        ((cs.filter (fun c => !c.isErr)).filter
          (fun c => ih || !startsWithDot c.name)) :=
      (insertionSortB_perm entryLe _).mem_iff.mpr hckept
    have hcd : c ∈ (insertionSortB entryLe
        ((cs.filter (fun c => !c.isErr)).filter
          (fun c => ih || !startsWithDot c.name))).filter
            (fun c => c.isDir) :=
      List.mem_filter.mpr ⟨hcs, readFails_isDir hrf⟩
    have hrmem : searchFilesSpec ih (dir ++ "/" ++ c.name) c ∈
        ((insertionSortB entryLe
          ((cs.filter (fun c => !c.isErr)).filter
            (fun c => ih || !startsWithDot c.name))).filter
              (fun c => c.isDir)).map
          (fun e => searchFilesSpec ih (dir ++ "/" ++ e.name) e) :=
      List.mem_map_of_mem _ hcd
    cases hsr : seqResults (((insertionSortB entryLe
        ((cs.filter (fun c => !c.isErr)).filter
          (fun c => ih || !startsWithDot c.name))).filter
            (fun c => c.isDir)).map
        (fun e => searchFilesSpec ih (dir ++ "/" ++ e.name) e)) with
    | error e => rw [hsr] at hok; cases hok
    | ok vs =>
      exact seqResults_not_ok _ _ hrmem
        (fun v2 => ihc (dir ++ "/" ++ c.name) v2) vs hsr

/-- Sequencing results each of which is a success or an
`UnableToReadDir` failure yields a success or an `UnableToReadDir`
failure. -/
theorem seqResults_shape :
    ∀ (l : List (Except SystemError (List String))),
      (∀ r ∈ l, (∃ v, r = .ok v) ∨ (∃ p, r = .error (.UnableToReadDir p))) →
      (∃ v, seqResults l = .ok v)
        ∨ (∃ p, seqResults l = .error (.UnableToReadDir p))
  | [], _ => Or.inl ⟨[], rfl⟩
  | r₀ :: rest, h => by
    rcases h r₀ (by simp) with ⟨v₀, hv₀⟩ | ⟨p, hp⟩
    · subst hv₀
      rcases seqResults_shape rest
        (fun r hr => h r (List.mem_cons_of_mem _ hr)) with ⟨vs, hvs⟩ | ⟨p, hp⟩
      · exact Or.inl ⟨v₀ ++ vs, by rw [seqResults, hvs]⟩
      · exact Or.inr ⟨p, by rw [seqResults, hp]⟩
    · subst hp
      exact Or.inr ⟨p, by rw [seqResults]⟩

/-- Every result of the scanner is a success or an `UnableToReadDir`
failure. -/
theorem spec_shape :
    ∀ (N : Nat) (t : Entry), sizeOf t ≤ N → ∀ (ih : Bool) (dir : String),
      (∃ v, searchFilesSpec ih dir t = .ok v)
        ∨ (∃ p, searchFilesSpec ih dir t = .error (.UnableToReadDir p))
  | _, .efile _, _, ih, dir => Or.inr ⟨dir, by simp [searchFilesSpec]⟩
  | _, .eerr, _, ih, dir => Or.inr ⟨dir, by simp [searchFilesSpec]⟩
  | _, .edir _ false _, _, ih, dir =>
    Or.inr ⟨dir, by simp [searchFilesSpec]⟩
  | 0, .edir n true cs, hN, _, _ => by
    exfalso
    simp only [Entry.edir.sizeOf_spec] at hN
    omega
  | N + 1, .edir n true cs, hN, ih, dir => by
    rw [searchFilesSpec_edir]
    have hmem : ∀ r ∈ ((insertionSortB entryLe
        ((cs.filter (fun c => !c.isErr)).filter
          (fun c => ih || !startsWithDot c.name))).filter
            (fun c => c.isDir)).map
        (fun e => searchFilesSpec ih (dir ++ "/" ++ e.name) e),
        (∃ v, r = .ok v) ∨ (∃ p, r = .error (.UnableToReadDir p)) := by
      intro r hr
      rcases List.mem_map.mp hr with ⟨e, he, rfl⟩
      have he2 : e ∈ cs := List.mem_of_mem_filter (List.mem_of_mem_filter
        (mem_of_insertionSortB entryLe _ _ (List.mem_of_mem_filter he)))
      have hsz : sizeOf e ≤ N := by
        have h3 := List.sizeOf_lt_of_mem he2
        simp only [Entry.edir.sizeOf_spec] at hN
        omega
      exact spec_shape N e hsz ih (dir ++ "/" ++ e.name)
    rcases seqResults_shape _ hmem with ⟨vs, hvs⟩ | ⟨p, hp⟩
    · exact Or.inl ⟨_, by rw [hvs]⟩
    · exact Or.inr ⟨p, by rw [hp]⟩

/-- C5: if the scan attempts and fails to read any directory — the root
or a nested, listed, non-filtered directory at any depth — it returns
the `UnableToReadDir` error and produces no file list at all. -/
theorem scan_aborts_on_unreadable (ih : Bool) (dir : String) (t : Entry)
    (h : ReadFails ih t) :
    ∃ p, search_files ih dir t = .error (.UnableToReadDir p) := by
  rw [search_files_eq_spec]
  rcases spec_shape (sizeOf t) t le_rfl ih dir with ⟨v, hv⟩ | hok
  · exact absurd hv (spec_not_ok h dir v)
  · exact hok

/-- C5 (witness): a readable root with a readable subdirectory holding
an unreadable subdirectory; the scan aborts with `UnableToReadDir`. -/
theorem scan_aborts_on_unreadable_witness :
    ∃ p, search_files false "/r"
        (.edir "r" true [.edir "s" true [.edir "locked" false []]])
      = .error (.UnableToReadDir p) :=
  scan_aborts_on_unreadable false "/r" _
    (ReadFails.child "r" [.edir "s" true [.edir "locked" false []]]
      (.edir "s" true [.edir "locked" false []]) (by simp) (by rfl)
      (by decide)
      (ReadFails.child "s" [.edir "locked" false []]
        (.edir "locked" false []) (by simp) (by rfl) (by decide)
        (ReadFails.here "locked" [])))

end DeepFinder
